import Mathlib

set_option maxRecDepth 100000

/-!
Verification of the restgen schema compiler and regeneration merge engine.

Text is modelled as `List Char` (named `Txt`).  Pure Go string functions
(`strings.Index`, `strings.Contains`, `strings.TrimSpace`, ...) and the
fixed regular expressions of the source are translated into executable
Lean functions.  Two pieces of the Go standard library are treated as
oracles supplied as inputs: the Go syntax-tree parser `go/parser`
(consumed by the stub classifier) and the compiled call-pattern regexp of
`parseCalls` (its match list is an input).  Everything else is translated
directly from the repository sources.
-/

namespace Restgen

abbrev Txt := List Char

/-- `isPre pat t` is true when `pat` is a prefix of `t` (Go `strings.HasPrefix`). -/
def isPre : Txt → Txt → Bool
  | [], _ => true
  | _ :: _, [] => false
  | p :: ps, t :: ts => p == t && isPre ps ts

/-- First index at which `pat` occurs in `t` (Go `strings.Index`; `none` for `-1`). -/
def firstIdx? (pat : Txt) : Txt → Option Nat
  | [] => if isPre pat [] then some 0 else none
  | c :: ts => if isPre pat (c :: ts) then some 0 else (firstIdx? pat ts).map (· + 1)

/-- Go `strings.Contains t pat`. -/
def containsSub (t pat : Txt) : Bool := (firstIdx? pat t).isSome

/-- Go `strings.HasSuffix`: `t[len(t)-len(suf):] == suf`. -/
def hasSuffix (suf t : Txt) : Bool :=
  decide (suf.length ≤ t.length) && (t.drop (t.length - suf.length) == suf)

/-- Go `strings.TrimSuffix`: drop one trailing occurrence of `suf` when present. -/
def trimSuffixTxt (suf t : Txt) : Txt :=
  if hasSuffix suf t then t.take (t.length - suf.length) else t

/-- ASCII white space in the sense of Go's `unicode.IsSpace`
(restricted to the ASCII range, which is all the sources ever emit). -/
def isSpaceGo (c : Char) : Bool :=
  c == ' ' || c == '\t' || c == '\n' || c == '\x0b' || c == '\x0c' || c == '\r'

/-- Go `strings.TrimSpace` (ASCII range). -/
def trimSpace (t : Txt) : Txt :=
  ((t.dropWhile isSpaceGo).reverse.dropWhile isSpaceGo).reverse

/-- Go regexp `\w`: ASCII word character. -/
def isWordChar (c : Char) : Bool := c.isAlpha || c.isDigit || c == '_'

/-- Maximal leading run of characters satisfying `p`, paired with the rest. -/
def takeRun (p : Char → Bool) (t : Txt) : Txt × Txt := (t.takeWhile p, t.dropWhile p)

/-- Drop a literal prefix, or fail. -/
def stripLit : Txt → Txt → Option Txt
  | [], t => some t
  | _ :: _, [] => none
  | p :: ps, c :: ts => if p == c then stripLit ps ts else none

/-- Go `strings.Replace(s, old, new, 1)`: replace the first occurrence. -/
def replaceFirst (s old new : Txt) : Txt :=
  match firstIdx? old s with
  | none => s
  | some i => s.take i ++ new ++ s.drop (i + old.length)

/-- Go `strings.Split` on a single-character separator. -/
def splitOnChar (sep : Char) : Txt → List Txt
  | [] => [[]]
  | c :: rest =>
    if c == sep then [] :: splitOnChar sep rest
    else
      match splitOnChar sep rest with
      | h :: t => (c :: h) :: t
      | [] => [[c]]

end Restgen

namespace Restgen

/-! ## Merge engine: fixed text contract (src/internal/merger/merger.go) -/

/-- `const marker` of merger.go. -/
def markerTxt : Txt := "// --- RESTGEN MARKER (do not edit above) ---".data

/-- `const removedMarker` of merger.go. -/
def removedMarkerTxt : Txt := "// --- REMOVED HANDLERS ---".data

/-- `splitAtMarker`: split the content at the first occurrence of the marker. -/
def splitAtMarker (content : Txt) : Txt × Txt :=
  match firstIdx? markerTxt content with
  | none => (content, [])
  | some idx => (content.take idx, content.drop (idx + markerTxt.length))

/-- Literal brace characters (written escaped throughout). -/
def braceOpen : Char := '\x7b'

/-- Closing brace character. -/
def braceClose : Char := '\x7d'

/-- `methodBlock` of merger.go. -/
structure MethodBlock where
  name : Txt
  content : Txt
deriving DecidableEq, Repr

/-- The Go brace-matching loop shared by `extractMethodsOrdered` and
`extractHandlerStruct`: starting just after the opening brace (absolute
index `i`, current `depth`), return the absolute index one past the brace
that brings the depth to zero, or `dflt` when the text ends first. -/
def braceScan : Txt → Nat → Nat → Nat → Nat
  | [], _, _, dflt => dflt
  | c :: cs, i, depth, dflt =>
    if c == braceOpen then braceScan cs (i + 1) (depth + 1) dflt
    else if c == braceClose then
      if depth == 1 then i + 1
      else braceScan cs (i + 1) (depth - 1) dflt
    else braceScan cs (i + 1) depth dflt

/-- Match the compiled pattern `func \(h \*\w+Handler\) (\w+)\(` at the head of
`t`.  On success return the captured method name and the length of the whole
match.  The regex pieces are deterministic: a greedy `\w+` run followed by a
non-word literal can only match the maximal word run. -/
def matchMethodSigAt (t : Txt) : Option (Txt × Nat) := do
  let r1 ← stripLit "func (h *".data t
  let (recv, r2) := takeRun isWordChar r1
  if hasSuffix "Handler".data recv && decide (8 ≤ recv.length) then
    let r3 ← stripLit ") ".data r2
    let (nm, r4) := takeRun isWordChar r3
    if decide (1 ≤ nm.length) then
      let _ ← stripLit "(".data r4
      some (nm, "func (h *".length + recv.length + ") ".length + nm.length + 1)
    else none
  else none

/-- One scanning step of `extractMethodsOrdered`: leftmost matches of the
method-signature pattern, non-overlapping (continue after each match end);
for each match, the block runs from the match start to the brace matching
the first `{` at or after it (matches with no `{` after them are skipped). -/
def extractScan (content : Txt) : Nat → Nat → List MethodBlock
  | 0, _ => []
  | fuel + 1, idx =>
    if idx < content.length then
      match matchMethodSigAt (content.drop idx) with
      | some (nm, matchLen) =>
        let rest := extractScan content fuel (idx + matchLen)
        match firstIdx? [braceOpen] (content.drop idx) with
        | none => rest
        | some b =>
          let braceIdx := idx + b
          let bodyEnd := braceScan (content.drop (braceIdx + 1)) (braceIdx + 1) 1 (braceIdx + 1)
          ⟨nm, (content.drop idx).take (bodyEnd - idx)⟩ :: rest
      | none => extractScan content fuel (idx + 1)
    else []

/-- `extractMethodsOrdered`: method blocks in order of appearance. -/
def extractMethodsOrdered (content : Txt) : List MethodBlock :=
  extractScan content (content.length + 1) 0

/-- Lookup in the Go map built by `extractMethods` (assignment in iteration
order, so the last block with a given name wins). -/
def lookupMeth : List MethodBlock → Txt → Option Txt
  | [], _ => none
  | m :: rest, n =>
    match lookupMeth rest n with
    | some v => some v
    | none => if m.name == n then some m.content else none

/-- The entries of the Go map `extractMethods content`: one per distinct
name, carrying the last block with that name.  (Go iterates maps in an
unspecified order; every property proved below is order-independent, and
this model fixes the order of last occurrences.) -/
def lastEntries : List MethodBlock → List MethodBlock
  | [] => []
  | m :: rest =>
    if rest.any (fun b => b.name == m.name) then lastEntries rest
    else m :: lastEntries rest

/-- First-match association lookup (Go map lookup over distinct keys). -/
def lookupAssoc : List MethodBlock → Txt → Option Txt
  | [], _ => none
  | m :: rest, n => if m.name == n then some m.content else lookupAssoc rest n

end Restgen

namespace Restgen

/-! ## Go syntax-tree fragment used by the stub classifier

The classifier invokes Go's `go/parser` (standard library, external to
this repository); the parser is therefore an oracle input of type
`Txt → Option (List GoDecl)`, and the classifier's own structural
analysis is translated from the source. -/

/-- The expression shapes inspected by `isNotImplementedResponse`,
`containsDecoderSetup` and `containsDecodeCall`. -/
inductive GoExpr where
  | call (fn : GoExpr) (args : List GoExpr)
  | sel (x : GoExpr) (selName : String)
  | ident (name : String)
  | otherE

/-- The statement shapes inspected by `isDecodeRelatedStatement`. -/
inductive GoStmt where
  | declS
  | assignS (rhs : List GoExpr)
  | exprS (x : GoExpr)
  | ifS (init : Option GoStmt) (body : List GoStmt)
  | returnS
  | otherS

/-- A top-level declaration of the wrapped source: a function declaration
(with its body, `none` when the body is absent) or anything else. -/
inductive GoDecl where
  | funcD (body : Option (List GoStmt))
  | otherD

/-- The loop of `isGeneratedStub` that picks the first `*ast.FuncDecl`. -/
def firstFuncDecl : List GoDecl → Option (Option (List GoStmt))
  | [] => none
  | .funcD b :: _ => some b
  | .otherD :: rest => firstFuncDecl rest

/-- `isNotImplementedResponse`: an expression statement calling
`WriteResponse` (or the identifier `writeResponse`/`WriteResponse`) whose
second argument is a selector ending in `StatusNotImplemented`. -/
def isNotImplementedResponse : GoStmt → Bool
  | .exprS (.call fn args) =>
    (match fn with
     | .sel _ s => s == "WriteResponse"
     | .ident n => n == "writeResponse" || n == "WriteResponse"
     | _ => false)
    &&
    (match args with
     | _ :: .sel _ s2 :: _ => s2 == "StatusNotImplemented"
     | _ => false)
  | _ => false

/-- `containsDecoderSetup`: a call whose function is a selector named `NewDecoder`. -/
def containsDecoderSetup : GoExpr → Bool
  | .call (.sel _ s) _ => s == "NewDecoder"
  | _ => false

mutual

/-- `containsDecodeCall`: recursively look for a `.Decode(...)` call. -/
def containsDecodeCall : GoExpr → Bool
  | .call fn args =>
    (match fn with
     | .sel _ s => s == "Decode"
     | _ => false)
    || containsDecodeCall fn || containsDecodeCallList args
  | .sel x _ => containsDecodeCall x
  | _ => false

/-- `containsDecodeCall` over an argument list. -/
def containsDecodeCallList : List GoExpr → Bool
  | [] => false
  | e :: rest => containsDecodeCall e || containsDecodeCallList rest

end

/-- `isDecodeErrorIf`: the guard's init is an assignment whose right side
contains a decode call, and the body's last statement is a return. -/
def isDecodeErrorIf (init : Option GoStmt) (body : List GoStmt) : Bool :=
  match init with
  | some (.assignS rhs) =>
    containsDecodeCallList rhs &&
    (match body.getLast? with
     | some .returnS => true
     | _ => false)
  | _ => false

/-- `isDecodeRelatedStatement`: the four decode-related statement shapes. -/
def isDecodeRelatedStatement : GoStmt → Bool
  | .declS => true
  | .assignS rhs => rhs.any containsDecoderSetup
  | .exprS x =>
    (match x with
     | .call (.sel _ s) _ => s == "IgnoreUnknownKeys"
     | _ => false)
  | .ifS init body => isDecodeErrorIf init body
  | _ => false

/-- The `"package stub\n"` wrapper prepended before parsing. -/
def pkgPrefix : Txt := "package stub\n".data

/-- The quick-reject text marker `"StatusNotImplemented"`. -/
def statusNIText : Txt := "StatusNotImplemented".data

/-- `isGeneratedStub`, with `go/parser` supplied as the oracle `goParse`. -/
def isGeneratedStub (goParse : Txt → Option (List GoDecl)) (impl : Txt) : Bool :=
  if !containsSub impl statusNIText then false
  else
    match goParse (pkgPrefix ++ impl) with
    | none => false
    | some decls =>
      match firstFuncDecl decls with
      | none => false
      | some none => false
      | some (some stmts) =>
        match stmts.getLast? with
        | none => false
        | some lastStmt =>
          isNotImplementedResponse lastStmt && stmts.dropLast.all isDecodeRelatedStatement

end Restgen

namespace Restgen

/-- Go regexp `\s`: one of tab, newline, form feed, carriage return, space. -/
def isRegexSpace (c : Char) : Bool :=
  c == '\t' || c == '\n' || c == '\x0c' || c == '\r' || c == ' '

/-- Go `strings.TrimPrefix`. -/
def trimPrefixTxt (pre t : Txt) : Txt := if isPre pre t then t.drop pre.length else t

/-- Go `strings.LastIndex` for a single character. -/
def lastIdxOfChar (c : Char) : Txt → Option Nat
  | [] => none
  | x :: rest =>
    match lastIdxOfChar c rest with
    | some i => some (i + 1)
    | none => if x == c then some 0 else none

/-- Match the pattern `// (\w+) was removed from schema[^/]*/\*\s*(func [^*]+)\*/`
at the head of `t`: on success, the captured name, the second capture
(`func ` plus the following star-free run), and the length of the whole
match.  Each greedy piece is followed by a literal its class excludes, so
the match is deterministic. -/
def matchRemovedAt (t : Txt) : Option (Txt × Txt × Nat) := do
  let r1 ← stripLit "// ".data t
  let (nm, r2) := takeRun isWordChar r1
  if decide (1 ≤ nm.length) then
    let r3 ← stripLit " was removed from schema".data r2
    let (skip, r4) := takeRun (fun c => !(c == '/')) r3
    let r5 ← stripLit "/*".data r4
    let (ws, r6) := takeRun isRegexSpace r5
    let r7 ← stripLit "func ".data r6
    let (body, r8) := takeRun (fun c => !(c == '*')) r7
    if decide (1 ≤ body.length) then
      let _ ← stripLit "*/".data r8
      some (nm, "func ".data ++ body,
        "// ".length + nm.length + " was removed from schema".length + skip.length
          + 2 + ws.length + "func ".length + body.length + 2)
    else none
  else none

/-- Leftmost, non-overlapping matches of the removed-entry pattern;
the second capture is `strings.TrimSpace`d as in the source loop. -/
def removedScan (content : Txt) : Nat → Nat → List MethodBlock
  | 0, _ => []
  | fuel + 1, idx =>
    if idx < content.length then
      match matchRemovedAt (content.drop idx) with
      | some (nm, cap, len) => ⟨nm, trimSpace cap⟩ :: removedScan content fuel (idx + len)
      | none => removedScan content fuel (idx + 1)
    else []

/-- `extractRemovedSection`: parse archive entries after the removed marker. -/
def extractRemovedSection (content : Txt) : List MethodBlock :=
  match firstIdx? removedMarkerTxt content with
  | none => []
  | some idx =>
    let removed := content.drop (idx + removedMarkerTxt.length)
    removedScan removed (removed.length + 1) 0

/-- Match `type\s+\w+Handler\s+struct\s*\{` at the head of `t`;
returns the length of the whole match (which ends just after the `{`). -/
def matchHandlerStructAt (t : Txt) : Option Nat := do
  let r1 ← stripLit "type".data t
  let (ws1, r2) := takeRun isRegexSpace r1
  if decide (1 ≤ ws1.length) then
    let (w, r3) := takeRun isWordChar r2
    if hasSuffix "Handler".data w && decide (8 ≤ w.length) then
      let (ws2, r4) := takeRun isRegexSpace r3
      if decide (1 ≤ ws2.length) then
        let r5 ← stripLit "struct".data r4
        let (ws3, r6) := takeRun isRegexSpace r5
        let _ ← stripLit [braceOpen] r6
        some ("type".length + ws1.length + w.length + ws2.length
          + "struct".length + ws3.length + 1)
      else none
    else none
  else none

/-- First match of the handler-struct pattern (Go `FindStringIndex`). -/
def handlerStructScan (content : Txt) : Nat → Nat → Option (Nat × Nat)
  | 0, _ => none
  | fuel + 1, idx =>
    if idx < content.length then
      match matchHandlerStructAt (content.drop idx) with
      | some len => some (idx, idx + len)
      | none => handlerStructScan content fuel (idx + 1)
    else none

/-- `extractHandlerStruct`: first `type XxxHandler struct {` with its
brace-matched body (empty text when absent). -/
def extractHandlerStruct (content : Txt) : Txt :=
  match handlerStructScan content (content.length + 1) 0 with
  | none => []
  | some (start, matchEnd) =>
    let braceStart := matchEnd - 1
    let e := braceScan (content.drop (braceStart + 1)) (braceStart + 1) 1 (braceStart + 1)
    (content.drop start).take (e - start)

/-- The default struct comment emitted by the generator. -/
def addDepsComment : Txt := "// add dependencies here".data

/-- `isEmptyHandlerStruct`: the struct body is empty or only the default comment. -/
def isEmptyHandlerStruct (structDef : Txt) : Bool :=
  let inner1 :=
    match firstIdx? [braceOpen] structDef with
    | some idx => structDef.drop (idx + 1)
    | none => structDef
  let inner2 :=
    match lastIdxOfChar braceClose inner1 with
    | some idx => inner1.take idx
    | none => inner1
  let inner := trimSpace inner2
  inner == [] || inner == addDepsComment ||
    (isPre addDepsComment inner && trimSpace (trimPrefixTxt addDepsComment inner) == [])

/-- `preserveHandlerStructFields`: substitute the existing handler struct
into the generated above-marker region when it has custom fields. -/
def preserveHandlerStructFields (generated existing : Txt) : Txt :=
  let existingStruct := extractHandlerStruct existing
  if existingStruct == [] then generated
  else if isEmptyHandlerStruct existingStruct then generated
  else
    let generatedStruct := extractHandlerStruct generated
    if generatedStruct == [] then generated
    else replaceFirst generated generatedStruct existingStruct

end Restgen

namespace Restgen

/-- The `HANDLER IMPLEMENTATIONS` banner written before the methods. -/
def implHeaderTxt : Txt :=
  "\n\n// ".data ++ List.replicate 76 '='
    ++ "\n// HANDLER IMPLEMENTATIONS\n// ".data ++ List.replicate 76 '=' ++ ['\n']

/-- The archive block written for one removed method. -/
def archiveBlockTxt (m : MethodBlock) : Txt :=
  "\n\n// ".data ++ m.name
    ++ " was removed from schema\n// Preserved implementation:\n/*\n".data
    ++ m.content ++ "\n*/".data

/-- The `preservedMethods` map built by the `MergeContent` loop: existing
methods still named by the new generation whose body is not a generated stub. -/
def preservedAssoc (goParse : Txt → Option (List GoDecl))
    (exEntries : List MethodBlock) (newNames : List Txt) : List MethodBlock :=
  exEntries.filter (fun m => newNames.contains m.name && !isGeneratedStub goParse m.content)

/-- Existing methods no longer named by the new generation (moved to the archive). -/
def removedLive (exEntries : List MethodBlock) (newNames : List Txt) : List MethodBlock :=
  exEntries.filter (fun m => !newNames.contains m.name)

/-- The bodies emitted below the banner, in the order of the freshly
generated methods, preferring a preserved implementation when one exists. -/
def mergedBlocks (goParse : Txt → Option (List GoDecl))
    (generatedBelow existingBelow : Txt) : List Txt :=
  let exEntries := lastEntries (extractMethodsOrdered existingBelow)
  let newNames := (extractMethodsOrdered generatedBelow).map (·.name)
  (extractMethodsOrdered generatedBelow).map (fun m =>
    match lookupAssoc (preservedAssoc goParse exEntries newNames) m.name with
    | some p => p
    | none => m.content)

/-- `MergeResult` of merger.go. -/
structure MergeResult where
  Content : Txt
  PreservedMethods : List Txt
  RemovedMethods : List Txt
deriving DecidableEq, Repr

/-- `MergeContent`: split both texts at the marker, carry the handler
struct forward, preserve non-stub bodies for surviving methods, and move
vanished methods (appended after the re-parsed archive entries) into the
removed-handlers archive. -/
def MergeContent (goParse : Txt → Option (List GoDecl))
    (generated existing : Txt) : MergeResult :=
  let existingAbove := (splitAtMarker existing).1
  let existingBelow := (splitAtMarker existing).2
  let generatedAbove := (splitAtMarker generated).1
  let generatedBelow := (splitAtMarker generated).2
  let mergedAbove := preserveHandlerStructFields generatedAbove existingAbove
  let exEntries := lastEntries (extractMethodsOrdered existingBelow)
  let newNames := (extractMethodsOrdered generatedBelow).map (·.name)
  let existingRemoved := extractRemovedSection existingBelow ++ removedLive exEntries newNames
  let blocks := mergedBlocks goParse generatedBelow existingBelow
  let below :=
    implHeaderTxt ++ (blocks.map (fun b => '\n' :: b)).flatten
      ++ "\n\n".data ++ removedMarkerTxt
      ++ (existingRemoved.map archiveBlockTxt).flatten
  { Content := mergedAbove ++ '\n' :: markerTxt ++ below
    PreservedMethods := (preservedAssoc goParse exEntries newNames).map (·.name)
    RemovedMethods := (removedLive exEntries newNames).map (·.name) }

/-- `Merge`: absent existing file (`none`) passes the generated text through. -/
def Merge (goParse : Txt → Option (List GoDecl))
    (generated : Txt) : Option Txt → MergeResult
  | none => { Content := generated, PreservedMethods := [], RemovedMethods := [] }
  | some existing => MergeContent goParse generated existing

end Restgen

namespace Restgen

/-! ## Concrete inputs used by the witness theorems -/

/-- An oracle modelling `go/parser` rejecting every input. -/
def gpNone : Txt → Option (List GoDecl) := fun _ => none

/-- A freshly generated stub body for method `GetContact`. -/
def wNewBody : Txt :=
  "func (h *CHandler) GetContact(w http.ResponseWriter, r *http.Request) \x7b\n\tshared.WriteResponse(w, http.StatusNotImplemented, nil)\n\x7d".data

/-- A hand-edited prior body for method `GetContact`. -/
def wOldBody : Txt :=
  "func (h *CHandler) GetContact(w http.ResponseWriter, r *http.Request) \x7b\n\tdb.Query()\n\x7d".data

/-- A prior method absent from the new generation. -/
def wOldOnly : Txt :=
  "func (h *CHandler) OldThing(w http.ResponseWriter, r *http.Request) \x7b\n\tx()\n\x7d".data

/-- An archived body carried in the prior output's removed section. -/
def wGoneBody : Txt := "func gone() x".data

/-- A freshly generated output text. -/
def wGen : Txt := "package r\n\n".data ++ markerTxt ++ "\n\n".data ++ wNewBody ++ ['\n']

/-- A prior output text with a hand-edited body, a vanished method and an
archive entry. -/
def wEx : Txt :=
  "package r\n\n".data ++ markerTxt ++ "\n\n".data ++ wOldBody ++ "\n\n".data
    ++ wOldOnly ++ "\n\n".data ++ removedMarkerTxt
    ++ "\n// Gone was removed from schema \n/*\nfunc gone() x\n*/\n".data

/-- The syntax tree of the stub body's response-writing statement. -/
def wStubStmt : GoStmt :=
  .exprS (.call (.sel (.ident "shared") "WriteResponse")
    [.ident "w", .sel (.ident "http") "StatusNotImplemented", .ident "nil"])

/-- An oracle modelling `go/parser` on the wrapped stub body. -/
def gpStub : Txt → Option (List GoDecl) := fun s =>
  if s == pkgPrefix ++ wNewBody then some [.funcD (some [wStubStmt])] else none

end Restgen

namespace Restgen

/-! ## Schema IR and call validation (schema package) -/

/-- `Arg` of the schema package (`TypeRef` models the Go field `Type`). -/
structure Arg where
  Name : Txt
  TypeRef : Txt
  Required : Bool
  IsList : Bool
deriving DecidableEq, Repr

/-- `Call` of the schema package. -/
structure Call where
  Name : Txt
  Method : Txt
  Path : Txt
  Args : List Arg
  ReturnType : Txt
  ReturnRequired : Bool
  ReturnIsList : Bool
deriving DecidableEq, Repr

/-- `Field` of the schema package. -/
structure Field where
  Name : Txt
  TypeRef : Txt
  Required : Bool
  IsList : Bool
deriving DecidableEq, Repr

/-- `TypeDef` of the schema package. -/
structure TypeDef where
  Name : Txt
  Fields : List Field
deriving DecidableEq, Repr

/-- `InputDef` of the schema package. -/
structure InputDef where
  Name : Txt
  Fields : List Field
deriving DecidableEq, Repr

/-- `EnumDef` of the schema package. -/
structure EnumDef where
  Name : Txt
  Values : List Txt
deriving DecidableEq, Repr

/-- `Include` of the schema package. -/
structure Include where
  Path : Txt
  Namespace : Txt
  Models : Txt
deriving DecidableEq, Repr

/-- `Call.PathParams`: scan `{...}` segments of the path in order.  As in the
source, the accumulating `current` is not reset on `}`, only on `{`. -/
def pathParamsAux : Txt → Bool → Txt → List Txt
  | [], _, _ => []
  | c :: rest, inParam, current =>
    if c == braceOpen then pathParamsAux rest true []
    else if c == braceClose then
      (if current.isEmpty then [] else [current]) ++ pathParamsAux rest false current
    else if inParam then pathParamsAux rest inParam (current ++ [c])
    else pathParamsAux rest inParam current

/-- Path parameter names of a call. -/
def Call.PathParams (c : Call) : List Txt := pathParamsAux c.Path false []

/-- `Call.PathParamSet` as a membership test (the Go `map[string]bool`). -/
def Call.PathParamSet (c : Call) (n : Txt) : Bool := c.PathParams.contains n

/-- `Call.IsBodyMethod`: POST, PUT and PATCH carry a request body. -/
def Call.IsBodyMethod (c : Call) : Bool :=
  c.Method == "POST".data || c.Method == "PUT".data || c.Method == "PATCH".data

/-- `Call.BodyArg`: the first argument not matching a path parameter. -/
def Call.BodyArg (c : Call) : Option Arg :=
  if !c.IsBodyMethod then none
  else c.Args.find? (fun a => !c.PathParamSet a.Name)

/-- `Call.QueryArgs`: for query-style verbs, the arguments not in the path. -/
def Call.QueryArgs (c : Call) : List Arg :=
  if c.IsBodyMethod then []
  else c.Args.filter (fun a => !c.PathParamSet a.Name)

/-- `Call.PathArgNames`: the names of arguments that are path parameters. -/
def Call.PathArgNames (c : Call) : List Txt :=
  (c.Args.filter (fun a => c.PathParamSet a.Name)).map (fun a => a.Name)

/-- `ValidationError` of the schema package (`CallName` models the field `Call`). -/
structure ValidationError where
  CallName : Txt
  Message : Txt
deriving DecidableEq, Repr

/-- Go `strings.Join(parts, ", ")`. -/
def joinComma : List Txt → Txt
  | [] => []
  | [x] => x
  | x :: rest => x ++ ", ".data ++ joinComma rest

/-- `Call.Validate`: body-style verbs allow at most one non-path argument,
and every path parameter needs a same-named argument.  (The Go source
iterates the parameter set in map order; only which violation is reported
first depends on that order, not whether one is reported.) -/
def Call.Validate (c : Call) : Option ValidationError :=
  let nonPathArgs := (c.Args.filter (fun a => !c.PathParamSet a.Name)).map (fun a => a.Name)
  if c.IsBodyMethod && decide (1 < nonPathArgs.length) then
    some ⟨c.Name,
      "body methods (POST/PUT/PATCH) can have at most one non-path argument as body, found: ".data
        ++ joinComma nonPathArgs⟩
  else
    match c.PathParams.find? (fun p => !(c.Args.any (fun a => a.Name == p))) with
    | some p => some ⟨c.Name,
        "path parameter ".data ++ [braceOpen] ++ p ++ [braceClose]
          ++ " has no matching argument".data⟩
    | none => none

end Restgen

namespace Restgen

/-! ## Type-reference parsing (parser package) -/

/-- The shared nullability/list parsing of `parseArgs`, `parseFields` and the
return-type block of `parseCalls` (the source repeats these steps verbatim):
strip an outer `!`, strip surrounding brackets, strip an inner `!`. -/
def parseTypeShape (typeStr0 : Txt) : Bool × Bool × Txt :=
  let required := hasSuffix "!".data typeStr0
  let t1 := if required then trimSuffixTxt "!".data typeStr0 else typeStr0
  let isList := isPre "[".data t1 && hasSuffix "]".data t1
  let t2 := if isList then (t1.drop 1).dropLast else t1
  (required, isList, trimSuffixTxt "!".data t2)

/-- `splitArgs` accumulator loop: split on top-level commas, tracking
bracket depth. -/
def splitArgsAux : Txt → Int → Txt → List Txt
  | [], _, current => if decide (0 < current.length) then [current] else []
  | c :: rest, depth, current =>
    if c == '[' then splitArgsAux rest (depth + 1) (current ++ [c])
    else if c == ']' then splitArgsAux rest (depth - 1) (current ++ [c])
    else if c == ',' then
      if depth == 0 then current :: splitArgsAux rest depth []
      else splitArgsAux rest depth (current ++ [c])
    else splitArgsAux rest depth (current ++ [c])

/-- `splitArgs` of the parser package. -/
def splitArgs (s : Txt) : List Txt := splitArgsAux s 0 []

/-- The per-part loop of `parseArgs`. -/
def parseArgsLoop : List Txt → Except Txt (List Arg)
  | [] => .ok []
  | part0 :: rest =>
    let part := trimSpace part0
    if part.isEmpty then parseArgsLoop rest
    else
      match firstIdx? ":".data part with
      | none => .error ("invalid arg: ".data ++ part)
      | some colonIdx =>
        let name := trimSpace (part.take colonIdx)
        let typeStr := trimSpace (part.drop (colonIdx + 1))
        let shape := parseTypeShape typeStr
        match parseArgsLoop rest with
        | .error e => .error e
        | .ok args => .ok (⟨name, shape.2.2, shape.1, shape.2.1⟩ :: args)

/-- `parseArgs` of the parser package. -/
def parseArgs (argsStr : Txt) : Except Txt (List Arg) :=
  if trimSpace argsStr == [] then .ok []
  else parseArgsLoop (splitArgs argsStr)

/-- The per-line loop of `parseFields` (lines without a colon are skipped). -/
def parseFieldsLoop : List Txt → List Field
  | [] => []
  | line0 :: rest =>
    let line := trimSpace line0
    if line.isEmpty || isPre "#".data line then parseFieldsLoop rest
    else
      match firstIdx? ":".data line with
      | none => parseFieldsLoop rest
      | some colonIdx =>
        let name := trimSpace (line.take colonIdx)
        let typeStr := trimSpace (line.drop (colonIdx + 1))
        let shape := parseTypeShape typeStr
        ⟨name, shape.2.2, shape.1, shape.2.1⟩ :: parseFieldsLoop rest

/-- `parseFields` of the parser package (it never fails). -/
def parseFields (body : Txt) : List Field := parseFieldsLoop (splitOnChar '\n' body)

/-- Go `strings.ToUpper` (ASCII). -/
def toUpperTxt (t : Txt) : Txt := t.map Char.toUpper

/-- One submatch of the `parseCalls` regexp
`(\w+)\s*\(([^)]*)\)\s*:\s*(\[?[\w.]+!?\]?!?)\s*@(get|post|put|patch|delete)\s*\(\s*"([^"]+)"\s*\)`;
the compiled Go regexp engine is treated as an oracle producing these. -/
structure CallMatch where
  name : Txt
  argsStr : Txt
  returnTypeRaw : Txt
  methodRaw : Txt
  path : Txt
deriving DecidableEq, Repr

/-- Build the `Call` record of `parseCalls` from a match and its parsed args. -/
def mkCall (m : CallMatch) (args : List Arg) : Call :=
  let shape := parseTypeShape m.returnTypeRaw
  { Name := m.name, Method := toUpperTxt m.methodRaw, Path := m.path, Args := args,
    ReturnType := shape.2.2, ReturnRequired := shape.1, ReturnIsList := shape.2.1 }

/-- The per-match loop of `parseCalls`: parse arguments, parse the return
type, validate, abort on the first error. -/
def parseCallsLoop : List CallMatch → Except Txt (List Call)
  | [] => .ok []
  | m :: rest =>
    match parseArgs m.argsStr with
    | .error e => .error ("parsing args for ".data ++ m.name ++ ": ".data ++ e)
    | .ok args =>
      let call := mkCall m args
      match call.Validate with
      | some err => .error (err.CallName ++ ": ".data ++ err.Message)
      | none =>
        match parseCallsLoop rest with
        | .error e => .error e
        | .ok calls => .ok (call :: calls)

/-- `parseCalls`, with the compiled call regexp supplied as an oracle. -/
def parseCalls (callOracle : Txt → List CallMatch) (body : Txt) : Except Txt (List Call) :=
  parseCallsLoop (callOracle body)

/-- Canonical textual form of a type reference, following the spec's four
nullability/list combinations (`T`, `T!`, `[T]`, `[T!]!`). -/
def renderTypeRef (name : Txt) (required isList : Bool) : Txt :=
  if isList then
    if required then "[".data ++ name ++ "!]!".data else "[".data ++ name ++ "]".data
  else
    if required then name ++ "!".data else name

end Restgen

namespace Restgen

/-! ## File-level parser (parser package)

`os.ReadFile` is modelled by an abstract file system `fs : FPath → Option Txt`
keyed by absolute paths, and recursion through includes is bounded by fuel
(the source has no cycle guard and would recurse without bound; every theorem
below quantifies over or supplies sufficient fuel). -/

/-- A file path: absolute flag plus segments (models `path/filepath` paths
without `.`/`..` cleaning, which the sources never produce). -/
structure FPath where
  isAbs : Bool
  segs : List String
deriving DecidableEq, Repr

/-- `filepath.Abs` relative to the working directory `cwd`. -/
def absOf (cwd p : FPath) : FPath := if p.isAbs then p else ⟨true, cwd.segs ++ p.segs⟩

/-- `filepath.Dir`. -/
def dirOf (p : FPath) : FPath := ⟨p.isAbs, p.segs.dropLast⟩

/-- `filepath.Base`. -/
def baseSeg (p : FPath) : String := p.segs.getLast?.getD ""

/-- `filepath.Join`. -/
def joinPath (dir rel : FPath) : FPath := ⟨dir.isAbs, dir.segs ++ rel.segs⟩

/-- The zero value of the parser's `baseDir` field (the Go empty string). -/
def emptyFPath : FPath := ⟨false, []⟩

/-- Interpret an include-path string as a path. -/
def strToPath (s : Txt) : FPath :=
  if isPre "/".data s then ⟨true, (splitOnChar '/' (s.drop 1)).map (fun seg => String.mk seg)⟩
  else ⟨false, (splitOnChar '/' s).map (fun seg => String.mk seg)⟩

/-- `filepath.Base` applied to the include-path string. -/
def lastPathSeg (s : Txt) : Txt := (splitOnChar '/' s).getLast?.getD []

/-- Namespace derivation of `parseInclude`: file name without `.sdl`, hyphens
replaced by underscores. -/
def namespaceOf (includePath : Txt) : Txt :=
  (trimSuffixTxt ".sdl".data (lastPathSeg includePath)).map
    (fun c => if c == '-' then '_' else c)

/-- `Schema` of the schema package. -/
structure Schema where
  FileName : Txt
  Base : Txt
  Models : Txt
  Includes : List Include
  Calls : List Call
  Types : List TypeDef
  Inputs : List InputDef
  Enums : List EnumDef
deriving DecidableEq, Repr

/-- Parser state: the single mutable `baseDir` field and the parse cache. -/
structure PState where
  baseDir : FPath
  cache : List (FPath × Schema)
deriving DecidableEq, Repr

/-- Cache lookup by absolute path (newest entry first). -/
def lookupCache : List (FPath × Schema) → FPath → Option Schema
  | [], _ => none
  | (p, s) :: rest, q => if p == q then some s else lookupCache rest q

/-- Compiler errors: unreadable file, a parse/validation message, or
exhausted fuel (model artifact standing for unbounded include recursion). -/
inductive CErr where
  | readErr (p : FPath)
  | argErr (msg : Txt)
  | fuelOut
deriving DecidableEq, Repr

/-- Match `#\s*@<word>\s*\(\s*"([^"]+)"\s*\)` at the head of `t`: the capture
and the length of the whole match. -/
def matchDirectiveAt (word : Txt) (t : Txt) : Option (Txt × Nat) := do
  let r1 ← stripLit "#".data t
  let (ws1, r2) := takeRun isRegexSpace r1
  let r3 ← stripLit ("@".data ++ word) r2
  let (ws2, r4) := takeRun isRegexSpace r3
  let r5 ← stripLit "(".data r4
  let (ws3, r6) := takeRun isRegexSpace r5
  let r7 ← stripLit "\"".data r6
  let (cap, r8) := takeRun (fun c => !(c == '"')) r7
  if decide (1 ≤ cap.length) then
    let r9 ← stripLit "\"".data r8
    let (ws4, r10) := takeRun isRegexSpace r9
    let _ ← stripLit ")".data r10
    some (cap, 1 + ws1.length + 1 + word.length + ws2.length + 1 + ws3.length + 1
      + cap.length + 1 + ws4.length + 1)
  else none

/-- Go `FindStringSubmatch`: the leftmost match's capture. -/
def scanFirstDirective (word : Txt) : Txt → Option Txt
  | [] => none
  | t@(_ :: rest) =>
    match matchDirectiveAt word t with
    | some r => some r.1
    | none => scanFirstDirective word rest

/-- Go `FindAllStringSubmatch`: captures of all non-overlapping leftmost matches. -/
def scanAllDirectives (word content : Txt) : Nat → Nat → List Txt
  | 0, _ => []
  | fuel + 1, idx =>
    if idx < content.length then
      match matchDirectiveAt word (content.drop idx) with
      | some (cap, len) => cap :: scanAllDirectives word content fuel (idx + len)
      | none => scanAllDirectives word content fuel (idx + 1)
    else []

/-- All captures of the directive pattern in order. -/
def allDirectives (word content : Txt) : List Txt :=
  scanAllDirectives word content (content.length + 1) 0

/-- The `@base` directive word. -/
def baseWord : Txt := "base".data

/-- The `@models` directive word. -/
def modelsWord : Txt := "models".data

/-- The `@include` directive word. -/
def includeWord : Txt := "include".data

/-- A `type`/`input`/`Calls` block found by `extractBlocks`. -/
structure SdlBlock where
  kind : Txt
  name : Txt
  body : Txt
deriving DecidableEq, Repr

/-- Match `(type|input)\s+(\w+)\s*\{` at the head of `t`: kind, name, and
the length of the whole match (ending just after the brace). -/
def matchBlockHeadAt (t : Txt) : Option (Txt × Txt × Nat) := do
  let kr ←
    match stripLit "type".data t with
    | some r => some ("type".data, r)
    | none =>
      match stripLit "input".data t with
      | some r => some ("input".data, r)
      | none => none
  let (ws1, r2) := takeRun isRegexSpace kr.2
  if decide (1 ≤ ws1.length) then
    let (nm, r3) := takeRun isWordChar r2
    if decide (1 ≤ nm.length) then
      let (ws2, r4) := takeRun isRegexSpace r3
      let _ ← stripLit [braceOpen] r4
      some (kr.1, nm, kr.1.length + ws1.length + nm.length + ws2.length + 1)
    else none
  else none

/-- The brace loop of `extractBlocks`: index of the brace closing the block
(the body excludes it), or `dflt` when the text ends first. -/
def braceScanIdx : Txt → Nat → Nat → Nat → Nat
  | [], _, _, dflt => dflt
  | c :: cs, i, depth, dflt =>
    if c == braceOpen then braceScanIdx cs (i + 1) (depth + 1) dflt
    else if c == braceClose then
      if depth == 1 then i
      else braceScanIdx cs (i + 1) (depth - 1) dflt
    else braceScanIdx cs (i + 1) depth dflt

/-- Scanning loop of `extractBlocks`. -/
def blockScan (content : Txt) : Nat → Nat → List SdlBlock
  | 0, _ => []
  | fuel + 1, idx =>
    if idx < content.length then
      match matchBlockHeadAt (content.drop idx) with
      | some (kind, nm, len) =>
        let bodyStart := idx + len
        let bodyEnd := braceScanIdx (content.drop bodyStart) bodyStart 1 bodyStart
        ⟨kind, nm, (content.drop bodyStart).take (bodyEnd - bodyStart)⟩
          :: blockScan content fuel (idx + len)
      | none => blockScan content fuel (idx + 1)
    else []

/-- `extractBlocks`: brace-matched `type`/`input` blocks in order. -/
def extractBlocks (content : Txt) : List SdlBlock :=
  blockScan content (content.length + 1) 0

/-- The block loop of `Parse`: a block named `Calls` is parsed as calls
(aborting on error), `type` and `input` blocks append to the schema. -/
def processBlocks (callOracle : Txt → List CallMatch) :
    List SdlBlock → Schema → Except CErr Schema
  | [], s => .ok s
  | b :: rest, s =>
    if b.name == "Calls".data then
      match parseCalls callOracle b.body with
      | .error e => .error (.argErr e)
      | .ok calls => processBlocks callOracle rest { s with Calls := calls }
    else if b.kind == "type".data then
      processBlocks callOracle rest { s with Types := s.Types ++ [⟨b.name, parseFields b.body⟩] }
    else if b.kind == "input".data then
      processBlocks callOracle rest
        { s with Inputs := s.Inputs ++ [⟨b.name, parseFields b.body⟩] }
    else processBlocks callOracle rest s

mutual

/-- `Parser.ParseFile`: resolve to an absolute path, consult the cache, read,
set `baseDir` to the file's directory (never restored — as in the source),
parse, set the file name, and cache the result. -/
def ParseFile (fs : FPath → Option Txt) (callOracle : Txt → List CallMatch)
    (cwd : FPath) : Nat → PState → FPath → Except CErr (Schema × PState)
  | 0, _, _ => .error .fuelOut
  | fuel + 1, st, path =>
    let absPath := absOf cwd path
    match lookupCache st.cache absPath with
    | some s => .ok (s, st)
    | none =>
      match fs absPath with
      | none => .error (.readErr absPath)
      | some data =>
        match Parse fs callOracle cwd fuel ⟨dirOf absPath, st.cache⟩ data with
        | .error e => .error e
        | .ok (s, st2) =>
          let s2 := { s with FileName := (baseSeg path).data }
          .ok (s2, ⟨st2.baseDir, (absPath, s2) :: st2.cache⟩)

/-- `Parser.Parse`: scan the base/models directives (first match wins),
resolve every include directive, then process the blocks. -/
def Parse (fs : FPath → Option Txt) (callOracle : Txt → List CallMatch)
    (cwd : FPath) : Nat → PState → Txt → Except CErr (Schema × PState)
  | 0, _, _ => .error .fuelOut
  | fuel + 1, st, content =>
    let s0 : Schema :=
      ⟨[], (scanFirstDirective baseWord content).getD [],
        (scanFirstDirective modelsWord content).getD [], [], [], [], [], []⟩
    match processIncludes fs callOracle cwd fuel st (allDirectives includeWord content) with
    | .error e => .error e
    | .ok (incs, st2) =>
      match processBlocks callOracle (extractBlocks content) { s0 with Includes := incs } with
      | .error e => .error e
      | .ok s2 => .ok (s2, st2)

/-- The include loop of `Parse`. -/
def processIncludes (fs : FPath → Option Txt) (callOracle : Txt → List CallMatch)
    (cwd : FPath) : Nat → PState → List Txt → Except CErr (List Include × PState)
  | 0, _, _ => .error .fuelOut
  | _ + 1, st, [] => .ok ([], st)
  | fuel + 1, st, ip :: rest =>
    match parseInclude fs callOracle cwd fuel st ip with
    | .error e => .error e
    | .ok (inc, st2) =>
      match processIncludes fs callOracle cwd fuel st2 rest with
      | .error e => .error e
      | .ok (incs, st3) => .ok (inc :: incs, st3)

/-- `Parser.parseInclude`: resolve the path against the parser's current
`baseDir` (unless absolute), recursively parse, derive the namespace. -/
def parseInclude (fs : FPath → Option Txt) (callOracle : Txt → List CallMatch)
    (cwd : FPath) : Nat → PState → Txt → Except CErr (Include × PState)
  | 0, _, _ => .error .fuelOut
  | fuel + 1, st, includePath =>
    let ip := strToPath includePath
    let fullPath :=
      if !ip.isAbs && decide (st.baseDir ≠ emptyFPath) then joinPath st.baseDir ip else ip
    match ParseFile fs callOracle cwd fuel st fullPath with
    | .error e => .error e
    | .ok (inc, st2) => .ok (⟨includePath, namespaceOf includePath, inc.Models⟩, st2)

end

end Restgen

namespace Restgen

/-- The `updateContact(id: ID!, input: UpdateContactInput!): Contact! @put("/{id}")`
example as the regexp match it produces. -/
def updMatch : CallMatch :=
  ⟨"updateContact".data, "id: ID!, input: UpdateContactInput!".data, "Contact!".data,
   "put".data, "/\x7bid\x7d".data⟩

/-- The `Call` compiled from `updMatch`. -/
def updCall : Call :=
  ⟨"updateContact".data, "PUT".data, "/\x7bid\x7d".data,
   [⟨"id".data, "ID".data, true, false⟩,
    ⟨"input".data, "UpdateContactInput".data, true, false⟩],
   "Contact".data, true, false⟩

/-- The failing `foo(a: String, b: String): Foo @post("/")` example. -/
def fooMatch : CallMatch :=
  ⟨"foo".data, "a: String, b: String".data, "Foo".data, "post".data, "/".data⟩

/-- The validation message produced for `fooMatch`. -/
def fooErrMsg : Txt :=
  "foo: body methods (POST/PUT/PATCH) can have at most one non-path argument as body, found: a, b".data

/-- A file whose only block is named `Calls`. -/
def c5Content : Txt := "type Calls \x7b\n\x7d\n".data

/-- A call-regexp oracle yielding the failing match for every block body. -/
def c5Oracle : Txt → List CallMatch := fun _ => [fooMatch]

end Restgen

namespace Restgen

/-- C6 failing input: the main file's two include directives, the first
living in a subdirectory. -/
def c6Main : Txt := "# @include(\"sub/x.sdl\")\n# @include(\"y.sdl\")\n".data

/-- C6 file system: `a/main.sdl`, `a/sub/x.sdl` and `a/y.sdl` exist;
`a/sub/y.sdl` does not. -/
def c6Fs : FPath → Option Txt := fun p =>
  if p == ⟨true, ["a", "main.sdl"]⟩ then some c6Main
  else if p == ⟨true, ["a", "sub", "x.sdl"]⟩ then some []
  else if p == ⟨true, ["a", "y.sdl"]⟩ then some "# @models(\"right\")\n".data
  else none

/-- A file with duplicate `@base` and `@models` directives. -/
def dupContent : Txt :=
  "# @base(\"/a\")\n# @base(\"/b\")\n# @models(\"m1\")\n# @models(\"m2\")\n".data

/-- The schema the compiler produces from `dupContent`. -/
def dupSchema : Schema := ⟨[], "/a".data, "m1".data, [], [], [], [], []⟩

/-- C9 file system with one empty schema file. -/
def c9Fs : FPath → Option Txt :=
  fun p => if p == ⟨true, ["a", "f.sdl"]⟩ then some [] else none

/-- The schema parsed from the empty file `a/f.sdl`. -/
def c9Schema : Schema := ⟨"f.sdl".data, [], [], [], [], [], [], []⟩

/-- Parser state after the first `ParseFile` call of the C9 witness. -/
def c9St : PState := ⟨⟨true, ["a"]⟩, [(⟨true, ["a", "f.sdl"]⟩, c9Schema)]⟩

/-- Every cached schema has an empty enum list. -/
def cacheEnumsEmpty (st : PState) : Prop := ∀ pr ∈ st.cache, pr.2.Enums = []

/-- C10 witness input: an enum block (ignored) followed by a type block. -/
def c10Content : Txt := "enum Status \x7b active \x7d\ntype T \x7b\n  a: ID!\n\x7d\n".data

/-- The schema parsed from `c10Content`: the enum block leaves no trace. -/
def c10Schema : Schema :=
  ⟨[], [], [], [], [],
   [⟨"T".data, [⟨"a".data, "ID".data, true, false⟩]⟩], [], []⟩

end Restgen

namespace Restgen

/-! ## Basic lemmas about the text utilities -/

lemma isPre_append (m s : Txt) : isPre m (m ++ s) = true := by
  induction m with
  | nil => rfl
  | cons c cs ih => simp [isPre, ih]

lemma firstIdx?_isSome_of_isPre {m t : Txt} (h : isPre m t = true) :
    (firstIdx? m t).isSome = true := by
  cases t <;> simp [firstIdx?, h]

lemma containsSub_factor (p m s : Txt) : containsSub (p ++ m ++ s) m = true := by
  induction p with
  | nil => simpa [containsSub] using firstIdx?_isSome_of_isPre (isPre_append m s)
  | cons c cs ih =>
    simp only [containsSub, List.cons_append, firstIdx?]
    cases hb : isPre m (c :: (cs ++ m ++ s)) with
    | true => simp
    | false =>
      simp only [containsSub] at ih
      obtain ⟨k, hk⟩ := Option.isSome_iff_exists.mp ih
      rw [List.append_assoc] at hk
      simp [hb, hk]

lemma containsSub_of_factor {t m : Txt} (p s : Txt) (h : t = p ++ m ++ s) :
    containsSub t m = true := h ▸ containsSub_factor p m s

lemma flatten_factor {α : Type} (f : α → Txt) :
    ∀ (l : List α) (x : α), x ∈ l → ∃ p s, (l.map f).flatten = p ++ f x ++ s := by
  intro l
  induction l with
  | nil => intro x hx; cases hx
  | cons hd tl ih =>
    intro x hx
    rcases List.mem_cons.mp hx with h | h
    · exact ⟨[], (tl.map f).flatten, by simp [h]⟩
    · obtain ⟨p, s, hps⟩ := ih x h
      exact ⟨f hd ++ p, s, by simp [hps]⟩

/-! ## Lemmas about the method-map model -/

lemma lookupMeth_isSome_of_any {ms : List MethodBlock} {n : Txt}
    (h : ms.any (fun b => b.name == n) = true) : (lookupMeth ms n).isSome = true := by
  induction ms with
  | nil => simp at h
  | cons m rest ih =>
    simp only [lookupMeth]
    cases hr : lookupMeth rest n with
    | some v => simp
    | none =>
      simp only [List.any_cons, Bool.or_eq_true] at h
      rcases h with h | h
      · simp [h]
      · have := ih h
        rw [hr] at this
        cases this

lemma lookupMeth_eq_none_of_any_false {ms : List MethodBlock} {n : Txt}
    (h : ms.any (fun b => b.name == n) = false) : lookupMeth ms n = none := by
  induction ms with
  | nil => rfl
  | cons m rest ih =>
    simp only [List.any_cons, Bool.or_eq_false_iff] at h
    simp [lookupMeth, ih h.2, h.1]

lemma lookupAssoc_lastEntries (ms : List MethodBlock) (n : Txt) :
    lookupAssoc (lastEntries ms) n = lookupMeth ms n := by
  induction ms with
  | nil => rfl
  | cons m rest ih =>
    simp only [lastEntries, lookupMeth]
    cases ha : rest.any (fun b => b.name == m.name) with
    | true =>
      simp only [if_pos rfl, ha, if_true]
      cases hr : lookupMeth rest n with
      | some v => rw [ih, hr]
      | none =>
        rw [ih, hr]
        cases hmn : m.name == n with
        | false => simp
        | true =>
          have : rest.any (fun b => b.name == n) = true := by
            have : m.name = n := by simpa using hmn
            simpa [this] using ha
          have hs := lookupMeth_isSome_of_any this
          rw [hr] at hs; cases hs
    | false =>
      simp only [ha, if_false, lookupAssoc]
      cases hmn : m.name == n with
      | true =>
        have hname : m.name = n := by simpa using hmn
        have : lookupMeth rest n = none :=
          lookupMeth_eq_none_of_any_false (by simpa [hname] using ha)
        simp [this, hmn]
      | false =>
        simp only [hmn, Bool.false_eq_true, if_false, ih]
        cases lookupMeth rest n <;> rfl

lemma mem_lastEntries {ms : List MethodBlock} {b : MethodBlock}
    (h : b ∈ lastEntries ms) : b ∈ ms := by
  induction ms with
  | nil => cases h
  | cons m rest ih =>
    simp only [lastEntries] at h
    cases ha : rest.any (fun x => x.name == m.name) with
    | true =>
      rw [ha] at h
      simp only [if_true] at h
      exact List.mem_cons_of_mem _ (ih h)
    | false =>
      rw [ha] at h
      simp only [Bool.false_eq_true, if_false] at h
      rcases List.mem_cons.mp h with h | h
      · exact h ▸ List.mem_cons_self _ _
      · exact List.mem_cons_of_mem _ (ih h)

lemma lastEntries_names_distinct (ms : List MethodBlock) :
    (lastEntries ms).Pairwise (fun a b => a.name ≠ b.name) := by
  induction ms with
  | nil => exact List.Pairwise.nil
  | cons m rest ih =>
    simp only [lastEntries]
    cases ha : rest.any (fun b => b.name == m.name) with
    | true => simpa using ih
    | false =>
      refine List.pairwise_cons.mpr ⟨?_, ih⟩
      intro b hb heq
      have hbm : b ∈ rest := mem_lastEntries hb
      have : rest.any (fun x => x.name == m.name) = true :=
        List.any_eq_true.mpr ⟨b, hbm, by simp [heq]⟩
      rw [this] at ha; cases ha

lemma lookupAssoc_eq_none {l : List MethodBlock} {n : Txt}
    (h : ∀ b ∈ l, b.name ≠ n) : lookupAssoc l n = none := by
  induction l with
  | nil => rfl
  | cons m rest ih =>
    have hm : m.name ≠ n := h m (List.mem_cons_self _ _)
    simp only [lookupAssoc]
    rw [if_neg (by simpa using hm)]
    exact ih fun b hb => h b (List.mem_cons_of_mem _ hb)

lemma lookupAssoc_filter (p : MethodBlock → Bool) :
    ∀ (l : List MethodBlock), l.Pairwise (fun a b => a.name ≠ b.name) → ∀ n,
      lookupAssoc (l.filter p) n
        = match lookupAssoc l n with
          | some v => if p ⟨n, v⟩ then some v else none
          | none => none := by
  intro l
  induction l with
  | nil => intro _ n; rfl
  | cons m rest ih =>
    intro hpw n
    obtain ⟨m1, m2⟩ := m
    obtain ⟨hR, hrest⟩ := List.pairwise_cons.mp hpw
    cases hmn : (MethodBlock.mk m1 m2).name == n with
    | true =>
      have hname : m1 = n := by simpa using hmn
      subst hname
      cases hp : p ⟨m1, m2⟩ with
      | true =>
        simp [List.filter_cons, hp, lookupAssoc, hmn]
      | false =>
        simp only [List.filter_cons, hp, Bool.false_eq_true, if_false, lookupAssoc, hmn]
        have : lookupAssoc (rest.filter p) m1 = none := by
          refine lookupAssoc_eq_none ?_
          intro b hb
          exact (hR b (List.mem_of_mem_filter hb)).symm
        simp [this, hp]
    | false =>
      have hname : ¬(m1 = n) := by simpa using hmn
      simp only [List.filter_cons]
      cases hp : p ⟨m1, m2⟩ with
      | true =>
        simp only [if_true, lookupAssoc, hmn]
        simpa using ih hrest n
      | false =>
        simp only [Bool.false_eq_true, if_false, lookupAssoc, hmn]
        simpa using ih hrest n

end Restgen

namespace Restgen

lemma preserved_lookup (gp : Txt → Option (List GoDecl)) (exMs : List MethodBlock)
    (newNames : List Txt) (n : Txt) :
    lookupAssoc (preservedAssoc gp (lastEntries exMs) newNames) n
      = match lookupMeth exMs n with
        | some v => if newNames.contains n && !isGeneratedStub gp v then some v else none
        | none => none := by
  have h := lookupAssoc_filter
    (fun m => newNames.contains m.name && !isGeneratedStub gp m.content)
    (lastEntries exMs) (lastEntries_names_distinct exMs) n
  simp only [preservedAssoc]
  rw [h, lookupAssoc_lastEntries]

lemma contains_of_mem {l : List Txt} {x : Txt} (h : x ∈ l) : l.contains x = true :=
  List.elem_eq_true_of_mem h

lemma MergeContent_RemovedMethods (gp : Txt → Option (List GoDecl)) (g e : Txt) :
    (MergeContent gp g e).RemovedMethods
      = (removedLive (lastEntries (extractMethodsOrdered (splitAtMarker e).2))
          ((extractMethodsOrdered (splitAtMarker g).2).map (fun m => m.name))).map
          (fun m => m.name) := rfl

lemma containsSub_mergedContent_block (gp : Txt → Option (List GoDecl)) (g e : Txt)
    {b : Txt} (hb : b ∈ mergedBlocks gp (splitAtMarker g).2 (splitAtMarker e).2) :
    containsSub (MergeContent gp g e).Content b = true := by
  obtain ⟨p, s, hps⟩ := flatten_factor (fun x => '\n' :: x) _ b hb
  refine containsSub_of_factor
    (preserveHandlerStructFields (splitAtMarker g).1 (splitAtMarker e).1
      ++ '\n' :: markerTxt ++ implHeaderTxt ++ p ++ ['\n'])
    (s ++ "\n\n".data ++ removedMarkerTxt
      ++ (((extractRemovedSection (splitAtMarker e).2
            ++ removedLive (lastEntries (extractMethodsOrdered (splitAtMarker e).2))
                 ((extractMethodsOrdered (splitAtMarker g).2).map (fun m => m.name))).map
            archiveBlockTxt).flatten)) ?_
  show (MergeContent gp g e).Content = _
  simp only [MergeContent, mergedBlocks] at hps ⊢
  rw [hps]
  simp [List.append_assoc]

lemma containsSub_mergedContent_archive (gp : Txt → Option (List GoDecl)) (g e : Txt)
    {m : MethodBlock}
    (hm : m ∈ extractRemovedSection (splitAtMarker e).2
            ++ removedLive (lastEntries (extractMethodsOrdered (splitAtMarker e).2))
                 ((extractMethodsOrdered (splitAtMarker g).2).map (fun x => x.name))) :
    containsSub (MergeContent gp g e).Content (archiveBlockTxt m) = true := by
  obtain ⟨p, s, hps⟩ := flatten_factor archiveBlockTxt _ m hm
  refine containsSub_of_factor
    (preserveHandlerStructFields (splitAtMarker g).1 (splitAtMarker e).1
      ++ '\n' :: markerTxt ++ implHeaderTxt
      ++ ((mergedBlocks gp (splitAtMarker g).2 (splitAtMarker e).2).map
            (fun x => '\n' :: x)).flatten
      ++ "\n\n".data ++ removedMarkerTxt ++ p)
    s ?_
  show (MergeContent gp g e).Content = _
  simp only [MergeContent, mergedBlocks] at hps ⊢
  rw [hps]
  simp [List.append_assoc]

end Restgen

namespace Restgen

/-- C1: `MergeContent` builds the below-marker region by walking the methods of
the freshly generated text in order; a method whose prior body exists in the
existing text and is classified as a non-stub keeps that exact prior body
(never the freshly generated placeholder), every other method gets the newly
generated body, and the chosen body occurs verbatim in the merged output. -/
theorem mergeContent_preserves_nonstub_bodies
    (gp : Txt → Option (List GoDecl)) (generated existing : Txt)
    (hg : containsSub generated markerTxt = true)
    (he : containsSub existing markerTxt = true)
    (i : Nat) (hi : i < (extractMethodsOrdered (splitAtMarker generated).2).length) :
    ∀ m chosen,
      (extractMethodsOrdered (splitAtMarker generated).2).get ⟨i, hi⟩ = m →
      (match lookupMeth (extractMethodsOrdered (splitAtMarker existing).2) m.name with
       | some impl => if isGeneratedStub gp impl then m.content else impl
       | none => m.content) = chosen →
      (mergedBlocks gp (splitAtMarker generated).2 (splitAtMarker existing).2).get? i
          = some chosen
        ∧ containsSub (MergeContent gp generated existing).Content chosen = true := by
  intro m chosen hm hch
  have hmem : m ∈ extractMethodsOrdered (splitAtMarker generated).2 := by
    rw [← hm]; exact List.get_mem _ _ _
  have hname : ((extractMethodsOrdered (splitAtMarker generated).2).map
      (fun y => y.name)).contains m.name = true :=
    contains_of_mem (List.mem_map_of_mem _ hmem)
  have hchosen :
      (match lookupAssoc (preservedAssoc gp
          (lastEntries (extractMethodsOrdered (splitAtMarker existing).2))
          ((extractMethodsOrdered (splitAtMarker generated).2).map (fun y => y.name)))
          m.name with
       | some p => p
       | none => m.content) = chosen := by
    rw [preserved_lookup]
    rw [← hch]
    cases hl : lookupMeth (extractMethodsOrdered (splitAtMarker existing).2) m.name with
    | none => rfl
    | some impl =>
      rw [hname]
      simp only [Bool.true_and]
      cases hstub : isGeneratedStub gp impl with
      | true => simp
      | false => simp
  have hget : (mergedBlocks gp (splitAtMarker generated).2
      (splitAtMarker existing).2).get? i = some chosen := by
    show ((extractMethodsOrdered (splitAtMarker generated).2).map _).get? i = some chosen
    rw [List.get?_map, List.get?_eq_get hi, hm]
    exact congrArg some hchosen
  refine ⟨hget, ?_⟩
  have hbmem : chosen ∈ mergedBlocks gp (splitAtMarker generated).2
      (splitAtMarker existing).2 := List.get?_mem hget
  exact containsSub_mergedContent_block gp generated existing hbmem

/-- C2: `isGeneratedStub` returns true exactly when the body contains the
`StatusNotImplemented` text, the wrapped source parses, the first function
declaration's body ends in the not-implemented response-writing call, and
every preceding statement is decode-related; in particular an unparseable
body is never a stub. -/
theorem isGeneratedStub_characterization
    (gp : Txt → Option (List GoDecl)) (impl : Txt) :
    (isGeneratedStub gp impl = true ↔
      containsSub impl statusNIText = true ∧
      ∃ decls stmts lastS,
        gp (pkgPrefix ++ impl) = some decls ∧
        firstFuncDecl decls = some (some stmts) ∧
        stmts.getLast? = some lastS ∧
        isNotImplementedResponse lastS = true ∧
        ∀ s ∈ stmts.dropLast, isDecodeRelatedStatement s = true) ∧
    (gp (pkgPrefix ++ impl) = none → isGeneratedStub gp impl = false) := by
  constructor
  · constructor
    · intro h
      unfold isGeneratedStub at h
      cases hc : containsSub impl statusNIText with
      | false => rw [hc] at h; simp at h
      | true =>
        rw [hc] at h
        simp only [Bool.not_true, Bool.false_eq_true, if_false] at h
        refine ⟨rfl, ?_⟩
        cases hgp : gp (pkgPrefix ++ impl) with
        | none => rw [hgp] at h; exact absurd h (by simp)
        | some decls =>
          rw [hgp] at h
          have hA : (match firstFuncDecl decls with
            | none => false
            | some none => false
            | some (some stmts) =>
              match stmts.getLast? with
              | none => false
              | some lastStmt =>
                isNotImplementedResponse lastStmt
                  && stmts.dropLast.all isDecodeRelatedStatement) = true := h
          cases hff : firstFuncDecl decls with
          | none => rw [hff] at hA; exact absurd hA (by simp)
          | some ob =>
            cases ob with
            | none => rw [hff] at hA; exact absurd hA (by simp)
            | some stmts =>
              rw [hff] at hA
              have hB : (match stmts.getLast? with
                | none => false
                | some lastStmt =>
                  isNotImplementedResponse lastStmt
                    && stmts.dropLast.all isDecodeRelatedStatement) = true := hA
              cases hl : stmts.getLast? with
              | none => rw [hl] at hB; exact absurd hB (by simp)
              | some lastS =>
                rw [hl] at hB
                rw [Bool.and_eq_true] at hB
                exact ⟨decls, stmts, lastS, rfl, hff, hl, hB.1,
                  fun s hs => List.all_eq_true.mp hB.2 s hs⟩
    · rintro ⟨hc, decls, stmts, lastS, hgp, hff, hl, h1, h2⟩
      unfold isGeneratedStub
      rw [hc]
      simp only [Bool.not_true, Bool.false_eq_true, if_false]
      rw [hgp]
      show (match firstFuncDecl decls with
        | none => false
        | some none => false
        | some (some stmts) =>
          match stmts.getLast? with
          | none => false
          | some lastStmt =>
            isNotImplementedResponse lastStmt
              && stmts.dropLast.all isDecodeRelatedStatement) = true
      rw [hff]
      show (match stmts.getLast? with
        | none => false
        | some lastStmt =>
          isNotImplementedResponse lastStmt
            && stmts.dropLast.all isDecodeRelatedStatement) = true
      rw [hl]
      show (isNotImplementedResponse lastS
        && stmts.dropLast.all isDecodeRelatedStatement) = true
      rw [Bool.and_eq_true]
      exact ⟨h1, List.all_eq_true.mpr h2⟩
  · intro h0
    cases hc : containsSub impl statusNIText <;> simp [isGeneratedStub, hc, h0]

/-- C3: every existing method absent from the new generation lands, body
verbatim, in the removed-handlers archive of the merged output and is named
in the `RemovedMethods` report; every archive entry recognized in the
existing text whose method still does not exist in the new generation is
carried into the merged output's archive unchanged. -/
theorem removed_methods_archived (gp : Txt → Option (List GoDecl))
    (generated existing : Txt) :
    (∀ m ∈ lastEntries (extractMethodsOrdered (splitAtMarker existing).2),
       ((extractMethodsOrdered (splitAtMarker generated).2).map
           (fun x => x.name)).contains m.name = false →
       m.name ∈ (MergeContent gp generated existing).RemovedMethods
         ∧ containsSub (MergeContent gp generated existing).Content (archiveBlockTxt m)
             = true)
    ∧ (∀ e ∈ extractRemovedSection (splitAtMarker existing).2,
       ((extractMethodsOrdered (splitAtMarker generated).2).map
           (fun x => x.name)).contains e.name = false →
       containsSub (MergeContent gp generated existing).Content (archiveBlockTxt e)
           = true) := by
  constructor
  · intro m hmem hcont
    have hrl : m ∈ removedLive
        (lastEntries (extractMethodsOrdered (splitAtMarker existing).2))
        ((extractMethodsOrdered (splitAtMarker generated).2).map (fun x => x.name)) :=
      List.mem_filter.mpr ⟨hmem, by rw [hcont]; rfl⟩
    refine ⟨?_, ?_⟩
    · rw [MergeContent_RemovedMethods]
      exact List.mem_map_of_mem _ hrl
    · exact containsSub_mergedContent_archive gp generated existing
        (List.mem_append.mpr (Or.inr hrl))
  · intro e hmem _
    exact containsSub_mergedContent_archive gp generated existing
      (List.mem_append.mpr (Or.inl hmem))

/-- C4: merging against no prior output is a pass-through, and re-merging the
same generated text against that result reproduces exactly the generated
method bodies when every body is still an unmodified stub. -/
theorem merge_idempotent (gp : Txt → Option (List GoDecl)) (A : Txt)
    (hm : containsSub A markerTxt = true)
    (hstub : ∀ m ∈ extractMethodsOrdered (splitAtMarker A).2,
        isGeneratedStub gp m.content = true) :
    (Merge gp A none).Content = A ∧
    mergedBlocks gp (splitAtMarker A).2 (splitAtMarker (Merge gp A none).Content).2
      = (extractMethodsOrdered (splitAtMarker A).2).map (fun m => m.content) := by
  refine ⟨rfl, ?_⟩
  have hnil : preservedAssoc gp (lastEntries (extractMethodsOrdered (splitAtMarker A).2))
      ((extractMethodsOrdered (splitAtMarker A).2).map (fun m => m.name)) = [] := by
    apply List.filter_eq_nil.mpr
    intro m hmem
    have hs := hstub m (mem_lastEntries hmem)
    simp [hs]
  show mergedBlocks gp (splitAtMarker A).2 (splitAtMarker A).2 = _
  simp [mergedBlocks, hnil, lookupAssoc]

end Restgen

namespace Restgen

/-- Witness for C1: merging the concrete generated text against the concrete
prior text keeps the hand-edited `GetContact` body, both as the first merged
block and verbatim inside the merged output. -/
theorem mergeContent_preserves_nonstub_bodies_w :
    (mergedBlocks gpNone (splitAtMarker wGen).2 (splitAtMarker wEx).2).get? 0
        = some wOldBody
      ∧ containsSub (MergeContent gpNone wGen wEx).Content wOldBody = true :=
  mergeContent_preserves_nonstub_bodies gpNone wGen wEx (by decide) (by decide) 0
    (by decide) ⟨"GetContact".data, wNewBody⟩ wOldBody (by decide) (by decide)

/-- Witness for C2: an unparseable body is classified as not a stub. -/
theorem isGeneratedStub_characterization_w :
    gpNone (pkgPrefix ++ wNewBody) = none ∧ isGeneratedStub gpNone wNewBody = false :=
  ⟨rfl, (isGeneratedStub_characterization gpNone wNewBody).2 rfl⟩

/-- Witness for C3: the vanished `OldThing` is reported and archived with its
body, and the prior archive entry `Gone` is carried into the output. -/
theorem removed_methods_archived_w :
    ("OldThing".data ∈ (MergeContent gpNone wGen wEx).RemovedMethods
      ∧ containsSub (MergeContent gpNone wGen wEx).Content
          (archiveBlockTxt ⟨"OldThing".data, wOldOnly⟩) = true)
    ∧ containsSub (MergeContent gpNone wGen wEx).Content
        (archiveBlockTxt ⟨"Gone".data, wGoneBody⟩) = true :=
  ⟨(removed_methods_archived gpNone wGen wEx).1 ⟨"OldThing".data, wOldOnly⟩
      (by decide) (by decide),
   (removed_methods_archived gpNone wGen wEx).2 ⟨"Gone".data, wGoneBody⟩
      (by decide) (by decide)⟩

/-- Witness for C4: pass-through on first merge and stable bodies on re-merge
for the concrete all-stub generated text. -/
theorem merge_idempotent_w :
    (Merge gpStub wGen none).Content = wGen ∧
    mergedBlocks gpStub (splitAtMarker wGen).2
        (splitAtMarker (Merge gpStub wGen none).Content).2
      = (extractMethodsOrdered (splitAtMarker wGen).2).map (fun m => m.content) :=
  merge_idempotent gpStub wGen (by decide) (by decide)

end Restgen

namespace Restgen

/-! ## Lemmas for the type-reference round trip -/

lemma hasSuffix_append (s t : Txt) : hasSuffix s (t ++ s) = true := by
  unfold hasSuffix
  rw [List.length_append, Nat.add_sub_cancel, List.drop_left]
  simp

lemma trimSuffix_append (s t : Txt) : trimSuffixTxt s (t ++ s) = t := by
  unfold trimSuffixTxt
  rw [hasSuffix_append, if_pos rfl, List.length_append, Nat.add_sub_cancel, List.take_left]

lemma hasSuffix_single_append (a b : Char) (t : Txt) :
    hasSuffix [a] (t ++ [b]) = (b == a) := by
  unfold hasSuffix
  rw [List.length_append]
  have h1 : t.length + [b].length - [a].length = t.length := by simp
  rw [h1, List.drop_left]
  simp [List.instBEq, List.beq]

lemma dropWhile_eq_self_of_head {p : Char → Bool} : ∀ (t : Txt),
    (∀ c, t.head? = some c → p c = false) → t.dropWhile p = t
  | [], _ => rfl
  | c :: ts, h => by simp [List.dropWhile, h c rfl]

lemma trimSpace_eq_self {t : Txt}
    (h1 : ∀ c, t.head? = some c → isSpaceGo c = false)
    (h2 : ∀ c, t.getLast? = some c → isSpaceGo c = false) : trimSpace t = t := by
  unfold trimSpace
  rw [dropWhile_eq_self_of_head t h1]
  rw [dropWhile_eq_self_of_head t.reverse ?hrev]
  · exact List.reverse_reverse t
  · intro c hc
    apply h2
    rwa [List.head?_reverse] at hc

lemma mem_of_head?_some {t : Txt} {c : Char} (h : t.head? = some c) : c ∈ t := by
  cases t with
  | nil => cases h
  | cons a ts => cases h; exact List.mem_cons_self _ _

lemma mem_of_getLast?_some {t : Txt} {c : Char} (h : t.getLast? = some c) : c ∈ t := by
  rw [← List.head?_reverse] at h
  have := mem_of_head?_some h
  simpa using this

lemma trimSpace_eq_self_of_mem {t : Txt} (h : ∀ c ∈ t, isSpaceGo c = false) :
    trimSpace t = t :=
  trimSpace_eq_self (fun c hc => h c (mem_of_head?_some hc))
    (fun c hc => h c (mem_of_getLast?_some hc))

lemma splitArgsAux_no_comma : ∀ (s : Txt) (depth : Int) (current : Txt),
    (∀ c ∈ s, c ≠ ',') →
    splitArgsAux s depth current = if current ++ s = [] then [] else [current ++ s]
  | [], depth, current, _ => by
    cases current <;> simp [splitArgsAux]
  | c :: rest, depth, current, h => by
    have hc : c ≠ ',' := h c (List.mem_cons_self _ _)
    have hrest : ∀ x ∈ rest, x ≠ ',' := fun x hx => h x (List.mem_cons_of_mem _ hx)
    have hne : ¬(current ++ c :: rest = []) := by simp
    rw [if_neg hne]
    unfold splitArgsAux
    split
    · rw [splitArgsAux_no_comma rest _ _ hrest, if_neg (by simp)]
      simp
    · split
      · rw [splitArgsAux_no_comma rest _ _ hrest, if_neg (by simp)]
        simp
      · split
        · rename_i hcomma
          exact absurd (by simpa using hcomma) hc
        · rw [splitArgsAux_no_comma rest _ _ hrest, if_neg (by simp)]
          simp

lemma splitArgs_no_comma {s : Txt} (h : ∀ c ∈ s, c ≠ ',') (hne : s ≠ []) :
    splitArgs s = [s] := by
  unfold splitArgs
  rw [splitArgsAux_no_comma s 0 [] h]
  simp [hne]

lemma splitOnChar_no_sep {sep : Char} : ∀ (s : Txt), (∀ c ∈ s, c ≠ sep) →
    splitOnChar sep s = [s]
  | [], _ => rfl
  | c :: rest, h => by
    have hc : c ≠ sep := h c (List.mem_cons_self _ _)
    unfold splitOnChar
    rw [if_neg (by simpa using hc),
      splitOnChar_no_sep rest (fun x hx => h x (List.mem_cons_of_mem _ hx))]

end Restgen

namespace Restgen

lemma parseTypeShape_render (name : Txt) (req lst : Bool)
    (hne : name ≠ [])
    (hbang : ∀ ch ∈ name, ch ≠ '!')
    (hlb : ∀ ch ∈ name, ch ≠ '[')
    (hrb : ∀ ch ∈ name, ch ≠ ']') :
    parseTypeShape (renderTypeRef name req lst) = (req, lst, name) := by
  obtain ⟨t, b, hdecomp⟩ := (List.eq_nil_or_concat name).resolve_left hne
  rw [List.concat_eq_append] at hdecomp
  have hbmem : b ∈ name := by rw [hdecomp]; simp
  obtain ⟨n0, nrest, hcons⟩ : ∃ n0 nrest, name = n0 :: nrest := by
    cases name with
    | nil => exact absurd rfl hne
    | cons a l => exact ⟨a, l, rfl⟩
  have hn0 : n0 ∈ name := by rw [hcons]; exact List.mem_cons_self _ _
  have hpre : isPre "[".data name = false := by
    rw [hcons]
    show (('[' == n0) && isPre [] nrest) = false
    have hn : ('[' == n0) = false := by simpa using (hlb n0 hn0).symm
    simp [hn]
  have hsufbang : hasSuffix "!".data name = false := by
    rw [hdecomp]
    show hasSuffix ['!'] (t ++ [b]) = false
    rw [hasSuffix_single_append]
    simpa using hbang b hbmem
  have htrimname : trimSuffixTxt "!".data name = name := by
    unfold trimSuffixTxt
    rw [hsufbang]
    simp
  cases req <;> cases lst
  · -- nullable scalar: T
    show parseTypeShape name = (false, false, name)
    simp only [parseTypeShape, hsufbang, Bool.false_eq_true, if_false, hpre,
      Bool.false_and, htrimname]
  · -- nullable list: [T]
    show parseTypeShape ("[".data ++ name ++ "]".data) = (false, true, name)
    have h1 : hasSuffix "!".data ("[".data ++ name ++ "]".data) = false := by
      show hasSuffix ['!'] (("[".data ++ name) ++ [']']) = false
      rw [hasSuffix_single_append]
      rfl
    have h2 : isPre "[".data ("[".data ++ name ++ "]".data) = true := by
      show (('[' == '[') && isPre [] (name ++ "]".data)) = true
      simp [isPre]
    have h3 : hasSuffix "]".data ("[".data ++ name ++ "]".data) = true :=
      hasSuffix_append "]".data ("[".data ++ name)
    have h4 : ((("[".data ++ name ++ "]".data).drop 1).dropLast) = name := by
      show ((name ++ [']']).dropLast) = name
      exact List.dropLast_concat
    simp only [parseTypeShape, h1, Bool.false_eq_true, if_false, h2, h3,
      Bool.and_self, if_true, h4, htrimname]
  · -- required scalar: T!
    show parseTypeShape (name ++ "!".data) = (true, false, name)
    have h1 : hasSuffix "!".data (name ++ "!".data) = true := hasSuffix_append _ _
    have h2 : trimSuffixTxt "!".data (name ++ "!".data) = name := trimSuffix_append _ _
    simp only [parseTypeShape, h1, if_true, h2, hpre, Bool.false_and,
      Bool.false_eq_true, if_false, htrimname]
  · -- required list of required elements: [T!]!
    show parseTypeShape ("[".data ++ name ++ "!]!".data) = (true, true, name)
    have hA : "[".data ++ name ++ "!]!".data = (("[".data ++ name) ++ ['!', ']']) ++ ['!'] := by
      simp
    have h1 : hasSuffix "!".data ("[".data ++ name ++ "!]!".data) = true := by
      rw [hA]
      exact hasSuffix_append ['!'] _
    have h2 : trimSuffixTxt "!".data ("[".data ++ name ++ "!]!".data)
        = ("[".data ++ name) ++ ['!', ']'] := by
      rw [hA]
      exact trimSuffix_append ['!'] _
    have h3 : isPre "[".data (("[".data ++ name) ++ ['!', ']']) = true := by
      show (('[' == '[') && isPre [] (name ++ ['!', ']'])) = true
      simp [isPre]
    have h4 : hasSuffix "]".data (("[".data ++ name) ++ ['!', ']']) = true := by
      have h := hasSuffix_append [']'] (("[".data ++ name) ++ ['!'])
      rw [show (("[".data ++ name) ++ ['!']) ++ [']'] = ("[".data ++ name) ++ ['!', ']'] by
        simp] at h
      exact h
    have h5 : (((("[".data ++ name) ++ ['!', ']']).drop 1).dropLast) = name ++ ['!'] := by
      show ((name ++ ['!', ']']).dropLast) = name ++ ['!']
      rw [show name ++ ['!', ']'] = (name ++ ['!']) ++ [']'] by simp]
      exact List.dropLast_concat
    have h6 : trimSuffixTxt "!".data (name ++ ['!']) = name := trimSuffix_append ['!'] name
    simp only [parseTypeShape, h1, if_true, h2, h3, h4, Bool.and_self, h5, h6]

end Restgen

namespace Restgen

lemma parseArgs_single (ts : Txt) (hne : ts ≠ [])
    (hmem : ∀ c ∈ ts, isSpaceGo c = false ∧ c ≠ ',') :
    parseArgs ("x: ".data ++ ts)
      = .ok [⟨"x".data, (parseTypeShape ts).2.2, (parseTypeShape ts).1,
          (parseTypeShape ts).2.1⟩] := by
  have hsp : ∀ c ∈ ts, isSpaceGo c = false := fun c hc => (hmem c hc).1
  have htrim_all : trimSpace ("x: ".data ++ ts) = "x: ".data ++ ts := by
    apply trimSpace_eq_self
    · intro c hc
      have hfrm : ("x: ".data ++ ts) = 'x' :: (':' :: ' ' :: ts) := rfl
      rw [hfrm] at hc
      cases hc
      rfl
    · intro c hc
      rw [List.getLast?_append_of_ne_nil _ hne] at hc
      exact hsp c (mem_of_getLast?_some hc)
  have hsplit : splitArgs ("x: ".data ++ ts) = ["x: ".data ++ ts] := by
    apply splitArgs_no_comma
    · intro c hc hceq
      subst hceq
      rcases List.mem_append.mp hc with h | h
      · exact absurd h (by decide)
      · exact (hmem _ h).2 rfl
    · simp
  have htrim_ts : trimSpace (' ' :: ts) = ts := by
    have h1 : (' ' :: ts).dropWhile isSpaceGo = ts.dropWhile isSpaceGo := rfl
    unfold trimSpace
    rw [h1, dropWhile_eq_self_of_head ts (fun c hc => hsp c (mem_of_head?_some hc)),
      dropWhile_eq_self_of_head ts.reverse (fun c hc => by
        rw [List.head?_reverse] at hc
        exact hsp c (mem_of_getLast?_some hc)),
      List.reverse_reverse]
  unfold parseArgs
  rw [htrim_all, hsplit]
  rw [show (("x: ".data ++ ts == ([] : Txt)) : Bool) = false from rfl]
  simp only [Bool.false_eq_true, if_false]
  unfold parseArgsLoop
  rw [htrim_all]
  dsimp only
  rw [show (List.isEmpty ("x: ".data ++ ts)) = false from rfl]
  simp only [Bool.false_eq_true, if_false]
  rw [show firstIdx? ":".data ("x: ".data ++ ts) = some 1 from rfl]
  dsimp only
  rw [show List.drop (1 + 1) (['x', ':', ' '] ++ ts) = ' ' :: ts from rfl, htrim_ts]
  rfl

lemma parseFields_single (ts : Txt) (hne : ts ≠ [])
    (hsp : ∀ c ∈ ts, isSpaceGo c = false) :
    parseFields ("f: ".data ++ ts)
      = [⟨"f".data, (parseTypeShape ts).2.2, (parseTypeShape ts).1,
          (parseTypeShape ts).2.1⟩] := by
  have htrim_all : trimSpace ("f: ".data ++ ts) = "f: ".data ++ ts := by
    apply trimSpace_eq_self
    · intro c hc
      have hfrm : ("f: ".data ++ ts) = 'f' :: (':' :: ' ' :: ts) := rfl
      rw [hfrm] at hc
      cases hc
      rfl
    · intro c hc
      rw [List.getLast?_append_of_ne_nil _ hne] at hc
      exact hsp c (mem_of_getLast?_some hc)
  have hsplitl : splitOnChar '\n' ("f: ".data ++ ts) = ["f: ".data ++ ts] := by
    apply splitOnChar_no_sep
    intro c hc hceq
    subst hceq
    rcases List.mem_append.mp hc with h | h
    · exact absurd h (by decide)
    · have := hsp '\n' h
      simp [isSpaceGo] at this
  have htrim_ts : trimSpace (' ' :: ts) = ts := by
    have h1 : (' ' :: ts).dropWhile isSpaceGo = ts.dropWhile isSpaceGo := rfl
    unfold trimSpace
    rw [h1, dropWhile_eq_self_of_head ts (fun c hc => hsp c (mem_of_head?_some hc)),
      dropWhile_eq_self_of_head ts.reverse (fun c hc => by
        rw [List.head?_reverse] at hc
        exact hsp c (mem_of_getLast?_some hc)),
      List.reverse_reverse]
  unfold parseFields
  rw [hsplitl]
  unfold parseFieldsLoop
  rw [htrim_all]
  dsimp only
  rw [show (List.isEmpty ("f: ".data ++ ts) || isPre "#".data ("f: ".data ++ ts))
      = false from rfl]
  simp only [Bool.false_eq_true, if_false]
  rw [show firstIdx? ":".data ("f: ".data ++ ts) = some 1 from rfl]
  dsimp only
  rw [show List.drop (1 + 1) (['f', ':', ' '] ++ ts) = ' ' :: ts from rfl, htrim_ts]
  rfl

lemma renderTypeRef_chars {name : Txt} {req lst : Bool} {ch : Char}
    (h : ch ∈ renderTypeRef name req lst) :
    ch ∈ name ∨ ch = '[' ∨ ch = ']' ∨ ch = '!' := by
  cases req <;> cases lst <;> simp [renderTypeRef] at h <;> tauto

/-- C8: each of the four nullability/list combinations of a type reference
parses — as an argument, a field, or a return type — to exactly the
corresponding (required, is-list) pair and bare name, and re-rendering the
parsed flags to the canonical textual form reproduces what was parsed. -/
theorem type_shape_roundtrip (name : Txt) (req lst : Bool)
    (hne : name ≠ [])
    (hch : ∀ ch ∈ name, ch ≠ '!' ∧ ch ≠ '[' ∧ ch ≠ ']' ∧ ch ≠ ',' ∧ ch ≠ ':'
        ∧ isSpaceGo ch = false) :
    parseTypeShape (renderTypeRef name req lst) = (req, lst, name)
    ∧ renderTypeRef (parseTypeShape (renderTypeRef name req lst)).2.2
        (parseTypeShape (renderTypeRef name req lst)).1
        (parseTypeShape (renderTypeRef name req lst)).2.1
        = renderTypeRef name req lst
    ∧ (mkCall ⟨"g".data, [], renderTypeRef name req lst, "get".data, "/".data⟩
        []).ReturnRequired = req
    ∧ (mkCall ⟨"g".data, [], renderTypeRef name req lst, "get".data, "/".data⟩
        []).ReturnIsList = lst
    ∧ (mkCall ⟨"g".data, [], renderTypeRef name req lst, "get".data, "/".data⟩
        []).ReturnType = name
    ∧ parseArgs ("x: ".data ++ renderTypeRef name req lst)
        = .ok [⟨"x".data, name, req, lst⟩]
    ∧ parseFields ("f: ".data ++ renderTypeRef name req lst)
        = [⟨"f".data, name, req, lst⟩] := by
  have hmain := parseTypeShape_render name req lst hne
    (fun ch h => (hch ch h).1) (fun ch h => (hch ch h).2.1) (fun ch h => (hch ch h).2.2.1)
  have hrne : renderTypeRef name req lst ≠ [] := by
    cases req <;> cases lst <;> simp [renderTypeRef, hne]
  have hrmem : ∀ c ∈ renderTypeRef name req lst, isSpaceGo c = false ∧ c ≠ ',' := by
    intro c hc
    rcases renderTypeRef_chars hc with h | rfl | rfl | rfl
    · exact ⟨(hch c h).2.2.2.2.2, (hch c h).2.2.2.1⟩
    · exact ⟨by decide, by decide⟩
    · exact ⟨by decide, by decide⟩
    · exact ⟨by decide, by decide⟩
  refine ⟨hmain, ?_, ?_, ?_, ?_, ?_, ?_⟩
  · rw [hmain]
  · show (parseTypeShape (renderTypeRef name req lst)).1 = req
    rw [hmain]
  · show (parseTypeShape (renderTypeRef name req lst)).2.1 = lst
    rw [hmain]
  · show (parseTypeShape (renderTypeRef name req lst)).2.2 = name
    rw [hmain]
  · rw [parseArgs_single _ hrne hrmem, hmain]
  · rw [parseFields_single _ hrne (fun c hc => (hrmem c hc).1), hmain]

/-- Witness for C8 at the concrete name `Contact` in the `[T!]!` combination. -/
theorem type_shape_roundtrip_w :
    parseTypeShape (renderTypeRef "Contact".data true true)
        = (true, true, "Contact".data)
      ∧ parseArgs ("x: ".data ++ renderTypeRef "Contact".data true true)
        = .ok [⟨"x".data, "Contact".data, true, true⟩] :=
  have h := type_shape_roundtrip "Contact".data true true (by decide) (by decide)
  ⟨h.1, h.2.2.2.2.2.1⟩

end Restgen

namespace Restgen

/-! ## Lemmas for call validation and compilation abort -/

lemma validate_isSome_iff (c : Call) :
    (Call.Validate c).isSome = true ↔
      ((∃ p ∈ c.PathParams, ∀ a ∈ c.Args, a.Name ≠ p)
        ∨ (c.IsBodyMethod = true
            ∧ 1 < (c.Args.filter (fun a => !c.PathParamSet a.Name)).length)) := by
  unfold Call.Validate
  dsimp only
  constructor
  · intro h
    by_cases hb : (c.IsBodyMethod && decide
        (1 < ((c.Args.filter (fun a => !c.PathParamSet a.Name)).map
          (fun a => a.Name)).length)) = true
    · right
      rw [Bool.and_eq_true] at hb
      obtain ⟨h1, h2⟩ := hb
      rw [List.length_map] at h2
      exact ⟨h1, of_decide_eq_true h2⟩
    · rw [if_neg hb] at h
      cases hf : c.PathParams.find? (fun p => !(c.Args.any (fun a => a.Name == p))) with
      | none => rw [hf] at h; cases h
      | some p =>
        left
        refine ⟨p, List.mem_of_find?_eq_some hf, ?_⟩
        have hpred := List.find?_some hf
        intro a ha heq
        have hany : c.Args.any (fun a => a.Name == p) = true :=
          List.any_eq_true.mpr ⟨a, ha, by simp [heq]⟩
        rw [hany] at hpred
        cases hpred
  · intro h
    by_cases hb : (c.IsBodyMethod && decide
        (1 < ((c.Args.filter (fun a => !c.PathParamSet a.Name)).map
          (fun a => a.Name)).length)) = true
    · rw [if_pos hb]; rfl
    · rw [if_neg hb]
      rcases h with ⟨p, hp, hnone⟩ | ⟨h1, h2⟩
      · cases hf : c.PathParams.find? (fun p => !(c.Args.any (fun a => a.Name == p))) with
        | some q => rfl
        | none =>
          exfalso
          have hall := List.find?_eq_none.mp hf p hp
          have hany : c.Args.any (fun a => a.Name == p) = true := by
            cases ha : c.Args.any (fun a => a.Name == p) with
            | true => rfl
            | false => exact absurd (by simp [ha]) hall
          obtain ⟨a, ha, heq⟩ := List.any_eq_true.mp hany
          exact hnone a ha (by simpa using heq)
      · exfalso
        apply hb
        rw [Bool.and_eq_true]
        refine ⟨h1, ?_⟩
        rw [List.length_map]
        exact decide_eq_true h2

lemma parseCallsLoop_error_of_invalid {ms : List CallMatch} {m : CallMatch} {args : List Arg}
    (hm : m ∈ ms) (hargs : parseArgs m.argsStr = .ok args)
    (hval : ((mkCall m args).Validate).isSome = true) :
    ∃ e, parseCallsLoop ms = .error e := by
  induction ms with
  | nil => cases hm
  | cons hd tl ih =>
    unfold parseCallsLoop
    rcases List.mem_cons.mp hm with rfl | hmem
    · rw [hargs]
      dsimp only
      cases hv : (mkCall m args).Validate with
      | none => rw [hv] at hval; cases hval
      | some err => exact ⟨_, rfl⟩
    · cases ha : parseArgs hd.argsStr with
      | error e => exact ⟨_, rfl⟩
      | ok args' =>
        dsimp only
        cases hv : (mkCall hd args').Validate with
        | some err => exact ⟨_, rfl⟩
        | none =>
          obtain ⟨e, he⟩ := ih hmem
          rw [he]
          exact ⟨e, rfl⟩

lemma processBlocks_error_of_calls {oracle : Txt → List CallMatch}
    {blocks : List SdlBlock} {b : SdlBlock}
    (hb : b ∈ blocks) (hname : b.name = "Calls".data)
    (herr : ∃ e, parseCalls oracle b.body = .error e) :
    ∀ s, ∃ e2, processBlocks oracle blocks s = .error e2 := by
  induction blocks with
  | nil => cases hb
  | cons hd tl ih =>
    intro s
    unfold processBlocks
    rcases List.mem_cons.mp hb with rfl | hmem
    · rw [if_pos (by simp [hname])]
      obtain ⟨e, he⟩ := herr
      rw [he]
      exact ⟨_, rfl⟩
    · by_cases h1 : (hd.name == "Calls".data) = true
      · rw [if_pos h1]
        cases hc : parseCalls oracle hd.body with
        | error e => exact ⟨_, rfl⟩
        | ok calls =>
          dsimp only
          exact ih hmem _
      · rw [if_neg h1]
        by_cases h2 : (hd.kind == "type".data) = true
        · rw [if_pos h2]; exact ih hmem _
        · rw [if_neg h2]
          by_cases h3 : (hd.kind == "input".data) = true
          · rw [if_pos h3]; exact ih hmem _
          · rw [if_neg h3]; exact ih hmem _

lemma parse_error_of_calls_block {fs : FPath → Option Txt}
    {oracle : Txt → List CallMatch} {cwd : FPath} {fuel : Nat} {st : PState}
    {content : Txt} {b : SdlBlock}
    (hb : b ∈ extractBlocks content) (hname : b.name = "Calls".data)
    (herr : ∃ e, parseCalls oracle b.body = .error e) :
    ∃ e2, Parse fs oracle cwd fuel st content = .error e2 := by
  cases fuel with
  | zero => exact ⟨.fuelOut, by rw [Parse]⟩
  | succ n =>
    rw [Parse]
    cases hpi : processIncludes fs oracle cwd n st (allDirectives includeWord content) with
    | error e => exact ⟨e, rfl⟩
    | ok r =>
      obtain ⟨incs, st2⟩ := r
      dsimp only
      obtain ⟨e2, he2⟩ := processBlocks_error_of_calls hb hname herr _
      rw [he2]
      exact ⟨e2, rfl⟩

end Restgen

namespace Restgen

/-- C5: call validation fails exactly when a `{param}` segment has no
same-named argument, or the verb is body-style (POST/PUT/PATCH) and more
than one argument does not match a path parameter; `updateContact` compiles
with `id` routed to path and `input` to body, `foo` fails validation, and a
failing call aborts the whole file's compilation. -/
theorem call_validate_characterization :
    (∀ c : Call, ((Call.Validate c).isSome = true ↔
       ((∃ p ∈ c.PathParams, ∀ a ∈ c.Args, a.Name ≠ p)
         ∨ (c.IsBodyMethod = true
             ∧ 1 < (c.Args.filter (fun a => !c.PathParamSet a.Name)).length))))
    ∧ parseCallsLoop [updMatch] = .ok [updCall]
    ∧ Call.Validate updCall = none
    ∧ Call.BodyArg updCall = some ⟨"input".data, "UpdateContactInput".data, true, false⟩
    ∧ Call.PathArgNames updCall = ["id".data]
    ∧ parseCallsLoop [fooMatch] = .error fooErrMsg
    ∧ (∀ (ms : List CallMatch) (m : CallMatch) (args : List Arg),
        m ∈ ms → parseArgs m.argsStr = .ok args →
        ((mkCall m args).Validate).isSome = true →
        ∃ e, parseCallsLoop ms = .error e)
    ∧ (∀ (fs : FPath → Option Txt) (oracle : Txt → List CallMatch) (cwd : FPath)
        (fuel : Nat) (st : PState) (content : Txt) (b : SdlBlock),
        b ∈ extractBlocks content → b.name = "Calls".data →
        (∃ e, parseCalls oracle b.body = .error e) →
        ∃ e2, Parse fs oracle cwd fuel st content = .error e2) := by
  refine ⟨validate_isSome_iff, rfl, by decide, by decide, by decide, rfl, ?_, ?_⟩
  · intro ms m args hm hargs hval
    exact parseCallsLoop_error_of_invalid hm hargs hval
  · intro fs oracle cwd fuel st content b hb hname herr
    exact parse_error_of_calls_block hb hname herr

/-- Witness for C5: the `foo` match inside a `Calls` block aborts the whole
file's compilation. -/
theorem call_validate_characterization_w :
    ∃ e2, Parse (fun _ => none) c5Oracle ⟨true, []⟩ 3 ⟨emptyFPath, []⟩ c5Content
      = .error e2 :=
  call_validate_characterization.2.2.2.2.2.2.2 (fun _ => none) c5Oracle ⟨true, []⟩ 3
    ⟨emptyFPath, []⟩ c5Content ⟨"type".data, "Calls".data, "\n".data⟩ (by decide)
    (by decide) ⟨fooErrMsg, rfl⟩

end Restgen

namespace Restgen

/-! ## Lemmas about the file-level parser -/

lemma processBlocks_fields {oracle : Txt → List CallMatch} :
    ∀ (blocks : List SdlBlock) (s s2 : Schema),
    processBlocks oracle blocks s = .ok s2 →
    s2.FileName = s.FileName ∧ s2.Base = s.Base ∧ s2.Models = s.Models
      ∧ s2.Includes = s.Includes ∧ s2.Enums = s.Enums := by
  intro blocks
  induction blocks with
  | nil =>
    intro s s2 h
    cases h
    exact ⟨rfl, rfl, rfl, rfl, rfl⟩
  | cons hd tl ih =>
    intro s s2 h
    unfold processBlocks at h
    split at h
    · split at h
      · cases h
      · simpa using ih _ _ h
    · split at h
      · simpa using ih _ _ h
      · split at h
        · simpa using ih _ _ h
        · exact ih _ _ h

lemma lookupCache_mem : ∀ {l : List (FPath × Schema)} {q : FPath} {s : Schema},
    lookupCache l q = some s → ∃ k, (k, s) ∈ l := by
  intro l
  induction l with
  | nil => intro q s h; cases h
  | cons pr rest ih =>
    obtain ⟨k0, s0⟩ := pr
    intro q s h
    unfold lookupCache at h
    split at h
    · cases h
      exact ⟨k0, List.mem_cons_self _ _⟩
    · obtain ⟨k, hk⟩ := ih h
      exact ⟨k, List.mem_cons_of_mem _ hk⟩

lemma cache_after_ok {fs : FPath → Option Txt} {oracle : Txt → List CallMatch}
    {cwd : FPath} {fuel : Nat} {st : PState} {p : FPath} {s : Schema} {stf : PState}
    (h : ParseFile fs oracle cwd fuel st p = .ok (s, stf)) :
    lookupCache stf.cache (absOf cwd p) = some s := by
  cases fuel with
  | zero => rw [ParseFile] at h; cases h
  | succ n =>
    rw [ParseFile] at h
    split at h
    · rename_i s0 hc
      cases h
      exact hc
    · split at h
      · cases h
      · split at h
        · cases h
        · cases h
          simp [lookupCache]

end Restgen

namespace Restgen

/-- C6 (code bug): `ParseFile` never restores `baseDir` after recursing into
an include, so with `a/main.sdl` including `sub/x.sdl` and then `y.sdl`, the
second include is resolved against `a/sub` — the directory of the previously
parsed file — and compilation fails with an unreadable `a/sub/y.sdl`, even
though `a/y.sdl` (the path the claim requires) exists. -/
theorem include_baseDir_slip :
    ParseFile c6Fs (fun _ => []) ⟨true, []⟩ 10 ⟨emptyFPath, []⟩
        ⟨true, ["a", "main.sdl"]⟩
      = .error (.readErr ⟨true, ["a", "sub", "y.sdl"]⟩)
    ∧ c6Fs ⟨true, ["a", "y.sdl"]⟩ = some "# @models(\"right\")\n".data :=
  ⟨rfl, rfl⟩

/-- C7 counterexample: with duplicate `@base`/`@models` directives the
compiled schema carries the FIRST directive's values (`/a`, `m1`), not the
last's (`/b`, `m2`) as the claim states. -/
theorem dup_directive_counterexample :
    Parse (fun _ => none) (fun _ => []) ⟨true, []⟩ 3 ⟨emptyFPath, []⟩ dupContent
        = .ok (dupSchema, ⟨emptyFPath, []⟩)
      ∧ dupSchema.Base = "/a".data ∧ dupSchema.Base ≠ "/b".data
      ∧ dupSchema.Models = "m1".data ∧ dupSchema.Models ≠ "m2".data :=
  ⟨rfl, rfl, by decide, rfl, by decide⟩

/-- C7 (amended): duplicate base-path or package-reference directives
resolve first-wins — the schema's base path and package reference are those
of the first matching directive in the file. -/
theorem directive_first_wins (content : Txt) (i : Nat) (v : Txt) (len : Nat) (word : Txt)
    (hmatch : matchDirectiveAt word (content.drop i) = some (v, len))
    (hbefore : ∀ k, k < i → matchDirectiveAt word (content.drop k) = none) :
    scanFirstDirective word content = some v
    ∧ (∀ (fs : FPath → Option Txt) (oracle : Txt → List CallMatch) (cwd : FPath)
        (fuel : Nat) (st : PState) (s : Schema) (st2 : PState),
        Parse fs oracle cwd fuel st content = .ok (s, st2) →
        (word = baseWord → s.Base = v) ∧ (word = modelsWord → s.Models = v)) := by
  have hscan : scanFirstDirective word content = some v := by
    induction i generalizing content with
    | zero =>
      rw [List.drop_zero] at hmatch
      cases content with
      | nil => rw [show matchDirectiveAt word ([] : Txt) = none from rfl] at hmatch; cases hmatch
      | cons c rest =>
        unfold scanFirstDirective
        rw [hmatch]
    | succ n ihn =>
      cases content with
      | nil =>
        rw [show List.drop (n + 1) ([] : Txt) = [] from by simp] at hmatch
        rw [show matchDirectiveAt word ([] : Txt) = none from rfl] at hmatch
        cases hmatch
      | cons c rest =>
        unfold scanFirstDirective
        have h0 := hbefore 0 (Nat.succ_pos n)
        rw [List.drop_zero] at h0
        rw [h0]
        exact ihn rest (by simpa using hmatch)
          (fun k hk => by simpa using hbefore (k + 1) (Nat.succ_lt_succ hk))
  refine ⟨hscan, ?_⟩
  intro fs oracle cwd fuel st s st2 hp
  cases fuel with
  | zero => rw [Parse] at hp; cases hp
  | succ n =>
    rw [Parse] at hp
    split at hp
    · cases hp
    · split at hp
      · cases hp
      · rename_i s2 hpb
        cases hp
        have hf := processBlocks_fields _ _ _ hpb
        constructor
        · intro hw
          subst hw
          rw [hf.2.1]
          show (scanFirstDirective baseWord content).getD [] = v
          rw [hscan]
          rfl
        · intro hw
          subst hw
          rw [hf.2.2.1]
          show (scanFirstDirective modelsWord content).getD [] = v
          rw [hscan]
          rfl

/-- Witness for C7's amended claim at the duplicate-directive input. -/
theorem directive_first_wins_w :
    scanFirstDirective baseWord dupContent = some "/a".data
      ∧ dupSchema.Base = "/a".data :=
  have h := directive_first_wins dupContent 0 "/a".data 13 baseWord (by decide)
    (fun k hk => absurd hk (by omega))
  ⟨h.1, (h.2 (fun _ => none) (fun _ => []) ⟨true, []⟩ 3 ⟨emptyFPath, []⟩ dupSchema
      ⟨emptyFPath, []⟩ rfl).1 rfl⟩

/-- C9: the cache is keyed by absolute path — after a successful `ParseFile`,
any later call whose path resolves to the same absolute path returns the
identical cached schema with the state unchanged, for ANY file system and
call oracle (so the file is neither re-read nor re-parsed). -/
theorem parse_cache_hit
    (fs fs' : FPath → Option Txt) (oracle oracle' : Txt → List CallMatch)
    (cwd : FPath) (fuel fuel' : Nat) (st : PState) (p q : FPath)
    (s : Schema) (stf : PState)
    (h1 : ParseFile fs oracle cwd fuel st p = .ok (s, stf))
    (habs : absOf cwd q = absOf cwd p) :
    ParseFile fs' oracle' cwd (fuel' + 1) stf q = .ok (s, stf) := by
  have hc := cache_after_ok h1
  rw [ParseFile, habs, hc]

/-- Witness for C9: with the cache warmed by parsing `a/f.sdl` via a relative
path, a second call through the absolute path succeeds against an empty file
system with minimal fuel. -/
theorem parse_cache_hit_w :
    ParseFile (fun _ => none) (fun _ => []) ⟨true, ["a"]⟩ (0 + 1) c9St
        ⟨true, ["a", "f.sdl"]⟩
      = .ok (c9Schema, c9St) :=
  parse_cache_hit c9Fs (fun _ => none) (fun _ => []) (fun _ => []) ⟨true, ["a"]⟩ 3 0
    ⟨emptyFPath, []⟩ ⟨false, ["f.sdl"]⟩ ⟨true, ["a", "f.sdl"]⟩ c9Schema c9St rfl
    (by decide)

end Restgen

namespace Restgen

lemma enums_empty_core (fs : FPath → Option Txt) (oracle : Txt → List CallMatch)
    (cwd : FPath) : ∀ (fuel : Nat),
    (∀ st content s st2, Parse fs oracle cwd fuel st content = .ok (s, st2) →
        s.Enums = [] ∧ (cacheEnumsEmpty st → cacheEnumsEmpty st2))
    ∧ (∀ st p s st2, cacheEnumsEmpty st →
        ParseFile fs oracle cwd fuel st p = .ok (s, st2) →
        s.Enums = [] ∧ cacheEnumsEmpty st2)
    ∧ (∀ st l incs st2, cacheEnumsEmpty st →
        processIncludes fs oracle cwd fuel st l = .ok (incs, st2) →
        cacheEnumsEmpty st2)
    ∧ (∀ st ip inc st2, cacheEnumsEmpty st →
        parseInclude fs oracle cwd fuel st ip = .ok (inc, st2) →
        cacheEnumsEmpty st2) := by
  intro fuel
  induction fuel with
  | zero =>
    refine ⟨?_, ?_, ?_, ?_⟩
    · intro st content s st2 h; rw [Parse] at h; cases h
    · intro st p s st2 _ h; rw [ParseFile] at h; cases h
    · intro st l incs st2 _ h; rw [processIncludes] at h; cases h
    · intro st ip inc st2 _ h; rw [parseInclude] at h; cases h
  | succ n ih =>
    obtain ⟨ihParse, ihPF, ihPI, ihInc⟩ := ih
    refine ⟨?_, ?_, ?_, ?_⟩
    · intro st content s st2 h
      rw [Parse] at h
      split at h
      · cases h
      · rename_i incs st' hpi
        split at h
        · cases h
        · rename_i s2 hpb
          cases h
          constructor
          · have hf := processBlocks_fields _ _ _ hpb
            simpa using hf.2.2.2.2
          · intro hinv
            exact ihPI _ _ _ _ hinv hpi
    · intro st p s st2 hinv h
      rw [ParseFile] at h
      split at h
      · rename_i s0 hc
        cases h
        obtain ⟨k, hk⟩ := lookupCache_mem hc
        exact ⟨hinv (k, s) hk, hinv⟩
      · split at h
        · cases h
        · rename_i data hf
          split at h
          · cases h
          · rename_i s1 st' hp
            cases h
            have hinv' : cacheEnumsEmpty ⟨dirOf (absOf cwd p), st.cache⟩ :=
              fun pr hpr => hinv pr hpr
            have hP := ihParse _ _ _ _ hp
            constructor
            · simpa using hP.1
            · intro pr hpr
              rcases List.mem_cons.mp hpr with rfl | hpr2
              · simpa using hP.1
              · exact hP.2 hinv' pr hpr2
    · intro st l incs st2 hinv h
      cases l with
      | nil =>
        rw [processIncludes] at h
        cases h
        exact hinv
      | cons ip rest =>
        rw [processIncludes] at h
        split at h
        · cases h
        · rename_i inc1 st' hincl
          split at h
          · cases h
          · rename_i incs2 st'' hrest
            cases h
            exact ihPI _ _ _ _ (ihInc _ _ _ _ hinv hincl) hrest
    · intro st ip inc st2 hinv h
      rw [parseInclude] at h
      split at h
      · cases h
      · rename_i sch st' hpf
        cases h
        exact (ihPF _ _ _ _ hinv hpf).2

/-- C10: the Schema produced by `Parse` — and hence by `ParseFile`, whose
cache only ever holds parsed schemas — has an empty `Enums` list: no code
path constructs an `EnumDef`, so enum blocks in the input are silently
ignored. -/
theorem parse_enums_empty :
    (∀ (fs : FPath → Option Txt) (oracle : Txt → List CallMatch) (cwd : FPath)
       (fuel : Nat) (st : PState) (content : Txt) (s : Schema) (st2 : PState),
       Parse fs oracle cwd fuel st content = .ok (s, st2) → s.Enums = [])
    ∧ (∀ (fs : FPath → Option Txt) (oracle : Txt → List CallMatch) (cwd : FPath)
       (fuel : Nat) (st : PState) (p : FPath) (s : Schema) (st2 : PState),
       cacheEnumsEmpty st → ParseFile fs oracle cwd fuel st p = .ok (s, st2) →
       s.Enums = []) := by
  constructor
  · intro fs oracle cwd fuel st content s st2 h
    exact ((enums_empty_core fs oracle cwd fuel).1 st content s st2 h).1
  · intro fs oracle cwd fuel st p s st2 hinv h
    exact ((enums_empty_core fs oracle cwd fuel).2.1 st p s st2 hinv h).1

/-- Witness for C10: a file with an enum block compiles to a schema with an
empty `Enums` list (the enum block leaves no trace at all). -/
theorem parse_enums_empty_w : c10Schema.Enums = [] :=
  parse_enums_empty.1 (fun _ => none) (fun _ => []) ⟨true, []⟩ 3 ⟨emptyFPath, []⟩
    c10Content c10Schema ⟨emptyFPath, []⟩ rfl

end Restgen
